import Mathlib

/-!
Verification of the NexusMusicTagDownloader core against its specification.

This file gives a shallow embedding, in Lean 4, of the parts of the
repository that the specification's claims are about:

* `DiscogsManager.clean_query` (src/src/core/discogs_manager.py) — the
  query normalizer;
* `DiscogsSearchWorker.run` (same file) — tiered query construction and
  the fallback search, plus the CD-first result ordering;
* `difflib.SequenceMatcher.ratio` — the text-similarity kernel the match
  scorer uses (`fuzzy_match_score` in src/src/ui/main_window.py and the
  score column of `DiscogsMatchDialog` in src/src/ui/discogs_dialog.py);
* `MetadataManager` (src/src/core/metadata_manager.py) — extension
  dispatch of `load_tags`/`save_tags`, the per-format compilation-flag
  extraction, the per-format cover-art replacement behaviour, and the
  filename transcoder `resolve_format` / `parse_filename`;
* the metadata apply step of the reconciliation flows in
  src/src/ui/main_window.py.

Strings are modelled as `List Char` internally (wrapped in `String` at
the boundaries); Python text is ASCII in every concrete input considered
here, so `Char.toLower` coincides with Python `str.lower`.  Python floats
are modelled as exact rationals (`ℚ`); all comparisons appearing in the
theorems below involve values far from the discretisation limits of IEEE
doubles, where the two semantics agree.
-/

/-! ## Basic Python-style string helpers -/

/-- The characters Python's `\s` (and `str.strip()` / `str.split()`)
treat as whitespace, restricted to ASCII. -/
def pySpace (c : Char) : Bool :=
  c = ' ' || c = '\t' || c = '\n' || c = '\r' || c = '\x0b' || c = '\x0c'

/-- ASCII lower-casing of a character list (Python `str.lower`). -/
def lowerCs (s : List Char) : List Char := s.map Char.toLower

/-- `hasPfx p s` holds when `p` is an initial segment of `s`. -/
def hasPfx : List Char → List Char → Bool
  | [], _ => true
  | _ :: _, [] => false
  | p :: ps, c :: cs => p = c && hasPfx ps cs

/-- `hasSfx p s` holds when `p` is a final segment of `s`. -/
def hasSfx (p s : List Char) : Bool := hasPfx p.reverse s.reverse

/-- `occursIn p s` holds when `p` appears as a contiguous substring of `s`. -/
def occursIn (p : List Char) : List Char → Bool
  | [] => hasPfx p []
  | c :: t => hasPfx p (c :: t) || occursIn p t

/-- Python `str.strip()`: remove leading and trailing whitespace. -/
def pyStrip (s : List Char) : List Char :=
  ((s.dropWhile pySpace).reverse.dropWhile pySpace).reverse

/-- Fuel-driven core of Python `str.replace` for a non-empty pattern:
scan left to right, replace each non-overlapping occurrence of `p` by
`v`, and continue scanning after the consumed occurrence. -/
def replFuel (p v : List Char) : Nat → List Char → List Char
  | 0, s => s
  | _ + 1, [] => []
  | fuel + 1, c :: t =>
    if hasPfx p (c :: t) then v ++ replFuel p v fuel ((c :: t).drop p.length)
    else c :: replFuel p v fuel t

/-- Python `s.replace(p, v)` for a non-empty pattern `p`. -/
def replaceAll (p v s : List Char) : List Char := replFuel p v s.length s

/-- Fuel-driven core of `re.sub(re.escape(p), '', s, flags=re.I)`:
delete every non-overlapping occurrence of the literal `p`,
case-insensitively, scanning left to right. -/
def delCIFuel (p : List Char) : Nat → List Char → List Char
  | 0, s => s
  | _ + 1, [] => []
  | fuel + 1, c :: t =>
    if hasPfx (lowerCs p) (lowerCs (c :: t)) then
      delCIFuel p fuel ((c :: t).drop p.length)
    else c :: delCIFuel p fuel t

/-- Case-insensitive deletion of all occurrences of the literal `p`. -/
def removeAllCI (p s : List Char) : List Char := delCIFuel p s.length s

/-- Fuel-driven core of `re.sub(r'\s+', ' ', s)`: every maximal run of
whitespace becomes a single space. -/
def collapseWsFuel : Nat → List Char → List Char
  | 0, s => s
  | _ + 1, [] => []
  | fuel + 1, c :: t =>
    if pySpace c then ' ' :: collapseWsFuel fuel (t.dropWhile pySpace)
    else c :: collapseWsFuel fuel t

/-- `re.sub(r'\s+', ' ', s)`. -/
def collapseWs (s : List Char) : List Char := collapseWsFuel s.length s

/-! ## `DiscogsManager.clean_query` (src/src/core/discogs_manager.py:345-373) -/

/-- The trailing audio-file extensions removed by
`re.sub(r'\.(mp3|flac|m4a|wav|aac)$', '', text, flags=re.I)`.  No
extension in this list is a suffix of another, so at most one of them
can match at the `$` anchor. -/
def mediaExts : List (List Char) :=
  [".mp3".data, ".flac".data, ".m4a".data, ".wav".data, ".aac".data]

/-- Removal of a trailing recognized audio extension (case-insensitive). -/
def stripMediaExt (s : List Char) : List Char :=
  match mediaExts.find? (fun e => hasSfx e (lowerCs s)) with
  | some e => s.take (s.length - e.length)
  | none => s

/-- The keyword vocabulary of the bracketed-junk pattern
`r'[\(\[][^\]\)]*(Official|Video|Audio|4K|HD|HQ|Lyrics|Visualizer|Live|Set|Stream|Upload|Record|Premiere)[^\]\)]*[\)\]]'`. -/
def junkKeywords : List String :=
  ["Official", "Video", "Audio", "4K", "HD", "HQ", "Lyrics", "Visualizer",
   "Live", "Set", "Stream", "Upload", "Record", "Premiere"]

def isOpenB (c : Char) : Bool := c = '(' || c = '['

def isCloseB (c : Char) : Bool := c = ')' || c = ']'

/-- Fuel-driven core of `re.sub(junk_pattern, '', text, flags=re.I)`.
A match starts at an opening bracket, spans the maximal run of
non-closing-bracket characters (which must contain one of the keywords,
case-insensitively), and ends at the first closing bracket after that
run; matching resumes after the consumed closing bracket. -/
def bracketJunkFuel : Nat → List Char → List Char
  | 0, s => s
  | _ + 1, [] => []
  | fuel + 1, c :: t =>
    if isOpenB c then
      let body := t.takeWhile (fun d => !isCloseB d)
      let rest := t.drop body.length
      if !rest.isEmpty &&
          junkKeywords.any (fun kw => occursIn (lowerCs kw.data) (lowerCs body)) then
        bracketJunkFuel fuel (rest.drop 1)
      else c :: bracketJunkFuel fuel t
    else c :: bracketJunkFuel fuel t

/-- Removal of every bracketed/parenthesized span containing a junk keyword. -/
def removeBracketJunk (s : List Char) : List Char := bracketJunkFuel s.length s

/-- The literal junk substrings removed by `clean_query`, in source order. -/
def junk_strings : List String :=
  ["Official Video", "Official Audio", "Official Music Video",
   "Full Set", "3-HR SET", "CLOSING SET", "at 909 Festival", "AMSTERDAM",
   "Exclusive", "Visualizer", "Music Video",
   "Original Mix", "Radio Edit", "Extended Mix", "Remix"]

/-- `DiscogsManager.clean_query`: strips a trailing audio extension, then
bracketed junk, then the literal junk substrings (case-insensitively, in
order), collapses the literal token `" B2B "` to a single space
(case-sensitively, as `str.replace` does), and finally collapses runs of
whitespace to single spaces and strips the ends. -/
def clean_query (text : String) : String :=
  if text = "" then ""
  else
    let s1 := stripMediaExt text.data
    let s2 := removeBracketJunk s1
    let s3 := junk_strings.foldl (fun s item => removeAllCI item.data s) s2
    let s4 := replaceAll " B2B ".data " ".data s3
    String.mk (pyStrip (collapseWs s4))

/-! ## `difflib.SequenceMatcher` (Python standard library)

The repository's match scoring is `SequenceMatcher(None, x, y).ratio()`
on lower-cased strings.  We embed the real difflib algorithm: `b2j`
(including the autojunk rule for `len(b) ≥ 200`; with `isjunk=None` the
junk set proper is empty, so the two junk-extension loops of
`find_longest_match` never fire and are omitted), the longest-matching-
block search with its left-extension/right-extension loops, the
recursive block decomposition, and `ratio = 2*M/T` computed in ℚ. -/

/-- `b2j`: for each element of `b`, its ascending list of indices, with
the autojunk rule (elements occurring more than `len(b)//100 + 1` times
are dropped when `len(b) ≥ 200`). -/
def b2jIdx (b : List Char) (c : Char) : List Nat :=
  let idxs := (b.enum.filter (fun p => p.2 = c)).map (fun p => p.1)
  if 200 ≤ b.length ∧ b.length / 100 + 1 < idxs.length then [] else idxs

/-- One row (one value of `i`) of the `find_longest_match` dynamic
programme: fold over the b-indices of `a[i]`, chaining run lengths via
the previous row's `j2len` dictionary and updating the best block. -/
def flmRow (i : Nat) (js : List Nat) (j2old : List (Nat × Nat))
    (best : Nat × Nat × Nat) : (List (Nat × Nat)) × (Nat × Nat × Nat) :=
  js.foldl
    (fun acc j =>
      let k := (if j = 0 then 0 else ((j2old.lookup (j - 1)).getD 0)) + 1
      let d := (j, k) :: acc.1
      let b := if acc.2.2.2 < k then (i + 1 - k, j + 1 - k, k) else acc.2
      (d, b))
    (([] : List (Nat × Nat)), best)

/-- The dynamic-programming core of `find_longest_match` on the ranges
`[alo, ahi) × [blo, bhi)`, before the extension loops. -/
def flmCore (a : List Char) (lk : Char → List Nat)
    (alo ahi blo bhi : Nat) : Nat × Nat × Nat :=
  ((List.range' alo (ahi - alo)).foldl
    (fun st i =>
      let js := (lk (a.getD i ' ')).filter (fun j => blo ≤ j && j < bhi)
      flmRow i js st.1 st.2)
    (([] : List (Nat × Nat)), (alo, blo, 0))).2

/-- The backward extension loop of `find_longest_match` (the non-junk
one; with `isjunk=None` the junk variant never fires). -/
def extendBack (a b : List Char) (alo blo : Nat) :
    Nat → Nat × Nat × Nat → Nat × Nat × Nat
  | 0, st => st
  | fuel + 1, (bi, bj, sz) =>
    if alo < bi ∧ blo < bj ∧ a.getD (bi - 1) ' ' = b.getD (bj - 1) ' ' then
      extendBack a b alo blo fuel (bi - 1, bj - 1, sz + 1)
    else (bi, bj, sz)

/-- The forward extension loop of `find_longest_match`. -/
def extendFwd (a b : List Char) (ahi bhi : Nat) :
    Nat → Nat × Nat × Nat → Nat × Nat × Nat
  | 0, st => st
  | fuel + 1, (bi, bj, sz) =>
    if bi + sz < ahi ∧ bj + sz < bhi ∧ a.getD (bi + sz) ' ' = b.getD (bj + sz) ' ' then
      extendFwd a b ahi bhi fuel (bi, bj, sz + 1)
    else (bi, bj, sz)

/-- `SequenceMatcher.find_longest_match` on `[alo, ahi) × [blo, bhi)`. -/
def find_longest_match (a b : List Char) (lk : Char → List Nat)
    (alo ahi blo bhi : Nat) : Nat × Nat × Nat :=
  let st := flmCore a lk alo ahi blo bhi
  let st := extendBack a b alo blo ahi st
  extendFwd a b ahi bhi ahi st

/-- Total size of all matching blocks (the recursive decomposition of
`get_matching_blocks`; only the sum of block sizes matters for
`ratio`). -/
def matchesFuel (a b : List Char) (lk : Char → List Nat) :
    Nat → Nat → Nat → Nat → Nat → Nat
  | 0, _, _, _, _ => 0
  | fuel + 1, alo, ahi, blo, bhi =>
    let r := find_longest_match a b lk alo ahi blo bhi
    if r.2.2 = 0 then 0
    else
      r.2.2 + matchesFuel a b lk fuel alo r.1 blo r.2.1 +
        matchesFuel a b lk fuel (r.1 + r.2.2) ahi (r.2.1 + r.2.2) bhi

/-- `M`: the total number of matched elements between `a` and `b`. -/
def totalMatches (a b : List Char) : Nat :=
  matchesFuel a b (b2jIdx b) (a.length + b.length) 0 a.length 0 b.length

/-- `SequenceMatcher(None, a, b).ratio() = 2*M / (len(a)+len(b))`
(`1.0` when both inputs are empty, as in `difflib._calculate_ratio`).
The quotient is formed with `mkRat`, which is exactly the rational
`2*M / (len(a)+len(b))` when the denominator is non-zero. -/
def ratioOf (a b : List Char) : ℚ :=
  if a.length + b.length = 0 then 1
  else mkRat (2 * totalMatches a b) (a.length + b.length)

/-! ## The match scorer (src/src/ui/main_window.py:473-499 and 309-326)

`fuzzy_match_score(local_title, discogs_title)` is
`SequenceMatcher(None, local_title.lower(), discogs_title.lower()).ratio()`;
the best-match loops keep a running maximum under a strict `>`
comparison starting from `best_score = 0.0`. -/

/-- `fuzzy_match_score` from `_on_match_discogs_album`. -/
def fuzzy_match_score (local_title discogs_title : String) : ℚ :=
  ratioOf (lowerCs local_title.data) (lowerCs discogs_title.data)

/-- A catalog tracklist entry as built by
`DiscogsManager.get_release_data` (src/src/core/discogs_manager.py:227-233):
a plain `dict` with the five keys `'title'`, `'position'`, `'duration'`,
`'duration_seconds'` (an `int`) and `'artists'`, in that insertion
order. -/
structure DTrack where
  title : String
  position : String
  duration : String
  duration_seconds : Nat
  artists : String
deriving DecidableEq, Repr

/-- The decimal digits of a natural number (Python `str(int)`), by
fuel. -/
def natDigitsF : Nat → Nat → List Char
  | 0, _ => []
  | fuel + 1, n =>
    if n < 10 then [Nat.digitChar n]
    else natDigitsF fuel (n / 10) ++ [Nat.digitChar (n % 10)]

/-- Python `str(n)` for a non-negative `int`. -/
def pyIntStr (n : Nat) : List Char := natDigitsF (n + 1) n

/-- Python `repr` of a `str` value that contains no quote, backslash or
non-printable character (all values used here): the text between single
quotes. -/
def pyStrRepr (s : String) : List Char := '\'' :: (s.data ++ ['\''])

/-- Python `str(dt)` for a tracklist `dict`: the `dict` repr
`{'title': …, 'position': …, 'duration': …, 'duration_seconds': …,
'artists': …}` with the keys in insertion order, string values in
quotes and the integer bare. -/
def strDt (dt : DTrack) : List Char :=
  "\x7b'title': ".data ++ pyStrRepr dt.title ++
  ", 'position': ".data ++ pyStrRepr dt.position ++
  ", 'duration': ".data ++ pyStrRepr dt.duration ++
  ", 'duration_seconds': ".data ++ pyIntStr dt.duration_seconds ++
  ", 'artists': ".data ++ pyStrRepr dt.artists ++ "\x7d".data

/-- The score the reconciliation flows compute for one tracklist entry.
The entries are plain `dict`s, and `hasattr(dt, 'title')` is `False`
for a `dict`, so `dt_title = dt.title if hasattr(dt, 'title') else
str(dt)` always takes the `str(dt)` branch: the code compares the local
title against the full dict repr (including the textual
`duration_seconds`), not against the entry's title. -/
def scoreAgainst (local_title : String) (dt : DTrack) : ℚ :=
  fuzzy_match_score local_title (String.mk (strDt dt))

/-- The best-match selection loop (`best_match`/`best_score`, strict `>`
against an initial `0.0`): returns the selected entry and its score. -/
def bestDiscogsTrack (local_title : String) (dts : List DTrack) :
    Option DTrack × ℚ :=
  dts.foldl
    (fun st dt =>
      let s := scoreAgainst local_title dt
      if st.2 < s then (some dt, s) else st)
    (none, 0)

/-! ## Candidate ordering (src/src/core/discogs_manager.py:133-135 and
src/src/ui/discogs_dialog.py:34-47)

The search worker sorts its matches by `(not is_cd, year)` ascending
(stable) and truncates to 10; `DiscogsMatchDialog` then computes
`_calculated_score` (0 when no `query_info` is supplied — both call
sites in main_window.py pass none) and sorts by `(is_cd,
_calculated_score)` descending (stable, `reverse=True`). -/

/-- A search-worker result row (the fields the sorts and the score read;
`year` is the integer year reported by the catalog). -/
structure WMatch where
  artists : String
  title : String
  year : Nat
  is_cd : Bool
deriving DecidableEq, Repr

/-- Stable insertion: `x` is placed before the first element `y` that is
not required to stay before it, so elements comparing equal keep their
original relative order — exactly the guarantee of Python's stable
`list.sort`. -/
def insertStable {α : Type} (later : α → α → Bool) : α → List α → List α
  | x, [] => [x]
  | x, y :: ys => if later y x then y :: insertStable later x ys else x :: y :: ys

/-- Stable sort parametrised by the strict must-precede relation
`later y x` (`y` sorts strictly before `x`). -/
def sortStable {α : Type} (later : α → α → Bool) : List α → List α
  | [] => []
  | x :: xs => insertStable later x (sortStable later xs)

/-- Strict lexicographic `<` on `Bool × Nat` (Python tuple comparison,
`False < True`). -/
def bnLt (p q : Bool × Nat) : Bool := (!p.1 && q.1) || (p.1 == q.1 && p.2 < q.2)

/-- Strict lexicographic `>` on `Bool × ℚ`. -/
def bqGt (p q : Bool × ℚ) : Bool := (p.1 && !q.1) || (p.1 == q.1 && decide (q.2 < p.2))

/-- The worker's sort key: `(not m['is_cd'], m['year'])`. -/
def workerKey (m : WMatch) : Bool × Nat := (!m.is_cd, m.year)

/-- `matches.sort(key=lambda m: (not m['is_cd'], m['year']))` followed by
`matches[:10]`. -/
def workerOrder (ms : List WMatch) : List WMatch :=
  (sortStable (fun y x => bnLt (workerKey y) (workerKey x)) ms).take 10

/-- `_calculated_score`: `SequenceMatcher(None, query_info.lower(),
f"{artist} - {title}".lower()).ratio() * 100` when a query string is
supplied, otherwise 0. -/
def calculatedScore (query_info : String) (m : WMatch) : ℚ :=
  if query_info ≠ "" then
    ratioOf (lowerCs query_info.data)
      (lowerCs (m.artists ++ " - " ++ m.title).data) * 100
  else 0

/-- The dialog's sort key `(m['is_cd'], m['_calculated_score'])`. -/
def dialogKey (query_info : String) (m : WMatch) : Bool × ℚ :=
  (m.is_cd, calculatedScore query_info m)

/-- `self.matches.sort(key=..., reverse=True)`: stable descending sort. -/
def dialogOrder (query_info : String) (ms : List WMatch) : List WMatch :=
  sortStable (fun y x => bqGt (dialogKey query_info y) (dialogKey query_info x)) ms

/-- The full pipeline producing the candidate list the dialog presents:
worker sort + truncation, then the dialog's sort. -/
def presentedMatches (query_info : String) (ms : List WMatch) : List WMatch :=
  dialogOrder query_info (workerOrder ms)

/-! ## `DiscogsSearchWorker.run` (src/src/core/discogs_manager.py:20-78)

The worker issues exactly one structured search chosen by the
precedence `catno > album+artist > artist+track > free text`, and — when
that first search was structured and returned zero results — exactly one
fallback search with the free-text cleaned query of all fields.
Searching is modelled by an oracle giving the result count of each
query; an exception while counting leaves `count = 0` in the source and
is subsumed by the oracle returning 0. -/

inductive DQuery where
  | catno (c : String)
  | albumArtist (artist album : String)
  | artistTrack (artist title : String)
  | free (q : String)
deriving DecidableEq, Repr

/-- The parameter set of the first `client.search` call (`None` when the
free-text query cleans to empty — the worker emits an error and issues
no search at all). -/
def primaryQuery (artist title album catno : String) : Option DQuery :=
  if catno ≠ "" then some (.catno catno)
  else if album ≠ "" then some (.albumArtist artist album)
  else if artist ≠ "" ∧ title ≠ "" then some (.artistTrack artist title)
  else
    let q := clean_query (String.mk (pyStrip (artist ++ " " ++ album ++ " " ++ title).data))
    if q = "" then none else some (.free q)

/-- The sequence of searches `DiscogsSearchWorker.run` issues, in order:
the primary search, then — only if the primary result count is zero and
at least one structured criterion was available — the single free-text
fallback built from all four fields. -/
def searchesIssued (oracle : DQuery → Nat) (artist title album catno : String) :
    List DQuery :=
  match primaryQuery artist title album catno with
  | none => []
  | some q =>
    if oracle q = 0 ∧ (album ≠ "" ∨ (artist ≠ "" ∧ title ≠ "") ∨ catno ≠ "") then
      [q, .free (clean_query (String.mk
        (pyStrip (artist ++ " " ++ album ++ " " ++ title ++ " " ++ catno).data)))]
    else [q]

/-! ## `MetadataManager` dispatch (src/src/core/metadata_manager.py)

The three per-format loaders/savers call into the external `mutagen`
library; they are modelled as oracle parameters.  What is embedded from
the source is everything `load_tags`/`save_tags` themselves do:
existence check, extension dispatch, the `try/except` that turns a
raising loader into an empty mapping, and the `tags['filepath']`
insertion on the success path. -/

/-- `os.path.splitext` (POSIX rules): split at the last dot, provided it
comes after the last path separator and the base name does not consist
solely of leading dots up to it. -/
def lastIdxOf (c : Char) (s : List Char) : Option Nat :=
  ((s.enum.filter (fun p => p.2 = c)).map (fun p => p.1)).getLast?

def splitExt (s : List Char) : List Char × List Char :=
  match lastIdxOf '.' s with
  | none => (s, [])
  | some di =>
    let start := match lastIdxOf '/' s with
      | none => 0
      | some si => si + 1
    if start ≤ di ∧ ((s.drop start).take (di - start)).any (fun c => c ≠ '.') then
      (s.take di, s.drop di)
    else (s, [])

/-- `os.path.splitext(path)[1].lower()`. -/
def extOf (path : String) : String := String.mk (lowerCs (splitExt path.data).2)

/-- `MetadataManager.SUPPORTED_EXTENSIONS` (line 32 of the source). -/
def SUPPORTED_EXTENSIONS : List String := [".mp3", ".flac", ".m4a", ".mp4"]

/-- Outcome of one per-format loader call: a tag mapping, or an
exception propagating out of the loader. -/
inductive LoadOutcome where
  | ok (tags : List (String × String))
  | raised
deriving DecidableEq

/-- The three format loaders (`_load_mp3`, `_load_flac`, `_load_mp4`),
as oracles over the file system. -/
structure Loaders where
  mp3 : String → LoadOutcome
  flac : String → LoadOutcome
  mp4 : String → LoadOutcome

/-- Python dict assignment `d[k] = v` on an insertion-ordered mapping:
replace in place if the key exists, else append. -/
def setKey {α : Type} : List (String × α) → String → α → List (String × α)
  | [], k, v => [(k, v)]
  | (k', v') :: t, k, v =>
    if k' = k then (k, v) :: t else (k', v') :: setKey t k v

/-- Mapping lookup (first match). -/
def lookupKey {α : Type} (l : List (String × α)) (k : String) : Option α :=
  (l.find? (fun p => p.1 = k)).map (fun p => p.2)

/-- The dispatch inside `load_tags`'s `try` block: `.mp3` / `.flac` /
(`.m4a` or `.aac`); any other extension leaves `tags = {}`. -/
def loadAttempt (ld : Loaders) (ext path : String) : LoadOutcome :=
  if ext = ".mp3" then ld.mp3 path
  else if ext = ".flac" then ld.flac path
  else if ext = ".m4a" ∨ ext = ".aac" then ld.mp4 path
  else .ok []

/-- `MetadataManager.load_tags`: missing file raises `FileNotFoundError`
(the `Except.error` case); a raising loader is caught and an empty
mapping returned; otherwise `tags['filepath'] = file_path` is added. -/
def load_tags (fileExists : String → Bool) (ld : Loaders) (path : String) :
    Except String (List (String × String)) :=
  if !fileExists path then Except.error ("File not found: " ++ path)
  else
    match loadAttempt ld (extOf path) path with
    | .raised => Except.ok []
    | .ok tags => Except.ok (setKey tags "filepath" path)

inductive SaveFmt where
  | mp3
  | flac
  | mp4
deriving DecidableEq, Repr

/-- The adapter `save_tags` dispatches to (`None` when no branch of the
`if/elif` chain matches the extension and the final `return False`
runs). -/
def saveDispatch (ext : String) : Option SaveFmt :=
  if ext = ".mp3" then some .mp3
  else if ext = ".flac" then some .flac
  else if ext = ".m4a" ∨ ext = ".aac" then some .mp4
  else none

/-- Outcomes of the per-format save calls (`none` = the call raised and
the `except` branch returns `False`). -/
structure Savers where
  run : SaveFmt → String → Option Bool

/-- `MetadataManager.save_tags`: `False` for a missing file, the
dispatched adapter's result for a handled extension (with exceptions
mapped to `False`), and `False` — with no adapter invoked — otherwise. -/
def save_tags (fileExists : String → Bool) (sv : Savers) (path : String) : Bool :=
  if !fileExists path then false
  else
    match saveDispatch (extOf path) with
    | none => false
    | some fmt =>
      match sv.run fmt path with
      | some b => b
      | none => false

/-! ## Per-format compilation-flag loading
(src/src/core/metadata_manager.py:132-134, 239, 308-309) -/

/-- MP3: `str(cpil.text[0]) if cpil and cpil.text else "0"` — the raw
first text value of the `TCMP` frame. -/
def mp3CompilationOf (tcmpText : Option (List String)) : String :=
  match tcmpText with
  | some (s :: _) => s
  | _ => "0"

/-- FLAC: `audio.get('COMPILATION', ['0'])[0]` — the raw first Vorbis
value; `none` models the `IndexError` a present-but-empty value list
would raise. -/
def flacCompilationOf (vals : Option (List String)) : Option String :=
  (vals.getD ["0"]).head?

/-- MP4: `"1" if cpil and cpil[0] else "0"` — normalized to a boolean
string. -/
def mp4CompilationOf (cpil : Option (List Bool)) : String :=
  match cpil with
  | some (b :: _) => if b then "1" else "0"
  | _ => "0"

/-! ## Per-format embedded-image stores after a save with a cover
(src/src/core/metadata_manager.py:213-221, 278-289, 381-389)

Images are identified by opaque ids (`Nat`).  MP3 `APIC` frames live in
mutagen's `ID3` mapping keyed by `'APIC:' + desc`; `audio.tags.add`
assigns under that key, so `_save_mp3`'s
`add(APIC(..., desc='Cover', ...))` writes the key `"APIC:Cover"` and
leaves frames under every other description key in place.  `_save_flac`
calls `clear_pictures()` before `add_picture(p)`; `_save_mp4` assigns
`audio['covr'] = [MP4Cover(...)]`. -/

/-- MP3 `APIC` frames after `_save_mp3` with a cover path. -/
def mp3CoverAfterSave (frames : List (String × Nat)) (cover : Option Nat) :
    List (String × Nat) :=
  match cover with
  | some img => setKey frames "APIC:Cover" img
  | none => frames

/-- FLAC picture block list after `_save_flac` with a cover path. -/
def flacPicturesAfterSave (pics : List Nat) (cover : Option Nat) : List Nat :=
  match cover with
  | some img => [img]
  | none => pics

/-- MP4 `covr` atom list after `_save_mp4` with a cover path. -/
def mp4CovrAfterSave (covr : List Nat) (cover : Option Nat) : List Nat :=
  match cover with
  | some img => [img]
  | none => covr

/-! ## The reconciliation apply step (src/src/ui/main_window.py:336-340
and 503-513) -/

/-- `update_if_present` / the guard of the apply loop:
`if val and str(val).strip(): track.metadata[key] = str(val)`. -/
def updateIfPresent (md : List (String × String)) (k v : String) :
    List (String × String) :=
  if (pyStrip v.data).isEmpty then md else setKey md k v

/-- The apply loop of `_on_match_discogs_track`: iterate the proposed
mapping in order and write each truthy, non-whitespace value. -/
def applyProposed (md proposed : List (String × String)) :
    List (String × String) :=
  proposed.foldl (fun m kv => updateIfPresent m kv.1 kv.2) md

/-! ## The filename transcoder
(src/src/core/metadata_manager.py:394-468)

`resolve_format` substitutes the seven `%placeholder%` tokens by
sequential `str.replace` in the fixed mapping order.  `parse_filename`
splits the format string with `re.split(r'(%[a-z]+%)')` into alternating
literal/token parts, compiles the literals to exact separators and the
known placeholders to `(?P<key>.+?)` capturing groups (greedy `(.+)` for
the final placeholder), anchors with `^...$`, and matches the
extension-stripped filename.  `matchParts` below implements exactly the
backtracking semantics of that anchored pattern: a non-greedy group
takes the shortest non-empty prefix whose remainder matches the rest of
the pattern, a greedy group the longest; the pattern is compiled without
`re.DOTALL`, so `.` (hence `.+?`/`.+`) matches any character except
`'\n'`, and the trailing `$` matches at the end of the subject or just
before a `'\n'` ending it; a pattern with a duplicated group name raises
`re.error`, which `parse_filename` catches, returning the empty
mapping. -/

/-- The placeholder → canonical-key mapping, in the iteration order of
`resolve_format`'s dict (Python 3.7+ insertion order). -/
def phMapping : List (String × String) :=
  [("%artist%", "artist"), ("%title%", "title"), ("%album%", "album"),
   ("%year%", "year"), ("%track%", "track"), ("%genre%", "genre"),
   ("%comment%", "comment")]

/-- `MetadataManager.resolve_format`: sequential replacement of each
placeholder by `str(tags.get(key, ''))`. -/
def resolve_format (format_str : String) (tags : List (String × String)) : String :=
  String.mk (phMapping.foldl
    (fun acc pk => replaceAll pk.1.data ((lookupKey tags pk.2).getD "").data acc)
    format_str.data)

def isLowerAZ (c : Char) : Bool := 'a' ≤ c && c ≤ 'z'

/-- Try to match `%[a-z]+%` at the head of `s`; on success return the
matched token and the remainder. -/
def phMatchAt (s : List Char) : Option (List Char × List Char) :=
  match s with
  | c :: t =>
    if c = '%' then
      (match t.drop (t.takeWhile isLowerAZ).length with
       | c2 :: r2 =>
         if c2 = '%' ∧ ¬ (t.takeWhile isLowerAZ).isEmpty then
           some ('%' :: ((t.takeWhile isLowerAZ) ++ ['%']), r2)
         else none
       | [] => none)
    else none
  | [] => none

/-- Fuel-driven scanner for `re.split(r'(%[a-z]+%)', format_str)`:
alternating literal parts and captured tokens, scanning left to right
(the result list always starts and ends with a literal part, possibly
empty). -/
def tokSplitFuel : Nat → List Char → List Char → List (List Char)
  | 0, acc, s => [acc.reverse ++ s]
  | fuel + 1, acc, s =>
    match phMatchAt s with
    | some tr => acc.reverse :: tr.1 :: tokSplitFuel fuel [] tr.2
    | none =>
      match s with
      | [] => [acc.reverse]
      | c :: t => tokSplitFuel fuel (c :: acc) t

/-- `re.split(r'(%[a-z]+%)', f)`. -/
def tokensOf (f : List Char) : List (List Char) := tokSplitFuel (f.length + 1) [] f

/-- Is this split part one of the seven known placeholders?  (Unknown
`%xyz%` tokens fall through to `re.escape` and act as literal text.) -/
def knownPh (tok : List Char) : Option String :=
  (phMapping.find? (fun pk => pk.1.data = tok)).map (fun pk => pk.2)

/-- One element of the compiled pattern: an exact literal separator or a
named capturing group. -/
inductive FPart where
  | lit (cs : List Char)
  | hole (key : String) (greedy : Bool)
deriving DecidableEq, Repr

/-- Position-indexed compilation of the split parts, reproducing the
`is_last_placeholder` rule: the group at index `i` is greedy iff
`i = len(parts)-1`, or `i = len(parts)-2` and the trailing literal part
is empty. -/
def partsOfAux (n : Nat) (lastEmpty : Bool) : Nat → List (List Char) → List FPart
  | _, [] => []
  | i, t :: rest =>
    (match knownPh t with
     | some key => FPart.hole key ((i == n - 1) || ((i == n - 2) && lastEmpty))
     | none => FPart.lit t) :: partsOfAux n lastEmpty (i + 1) rest

/-- Compile the split parts of the format into the pattern parts. -/
def partsOf (toks : List (List Char)) : List FPart :=
  partsOfAux toks.length (toks.getD (toks.length - 1) []).isEmpty 0 toks

/-- Backtracking matcher for the anchored pattern `^...$` built from the
parts: literals must match exactly; a group (`.+?` or `.+`) takes the
shortest (resp. longest) non-empty prefix of characters other than
`'\n'` (the pattern has no `re.DOTALL`) such that the remaining pattern
matches the remaining input; the empty pattern (the position of the
trailing `$`) accepts the empty remainder or a sole `'\n'`.  Returns the
named captures in pattern order. -/
def matchParts : List FPart → List Char → Option (List (String × List Char))
  | [], s => if s = [] ∨ s = ['\n'] then some [] else none
  | .lit l :: rest, s =>
    if hasPfx l s then matchParts rest (s.drop l.length) else none
  | .hole key greedy :: rest, s =>
    let cands := (List.range (s.takeWhile (fun c => c != '\n')).length).filterMap
      (fun j => (matchParts rest (s.drop (j + 1))).map (fun r => (s.take (j + 1), r)))
    match (cond greedy cands.getLast? cands.head?) with
    | some vr => some ((key, vr.1) :: vr.2)
    | none => none

/-- `MetadataManager.parse_filename`: strip the extension, split the
format, fail to the empty mapping when there is no known placeholder
(`found_any`) or a duplicated one (`re.error` on group redefinition,
caught by the `except`), otherwise run the anchored match and return the
captured group dictionary. -/
def parse_filename (format_str filename : String) : List (String × String) :=
  let name := (splitExt filename.data).1
  let toks := tokensOf format_str.data
  let keys := toks.filterMap knownPh
  if keys.isEmpty then []
  else if keys.Nodup then
    match matchParts (partsOf toks) name with
    | some groups => groups.map (fun kv => (kv.1, String.mk kv.2))
    | none => []
  else []

/-- The mapping `parse_filename` is expected to recover: each known
placeholder of the format paired with the tag value substituted for it. -/
def expectedGroups (toks : List (List Char)) (tags : List (String × String)) :
    List (String × String) :=
  toks.filterMap (fun t =>
    (knownPh t).map (fun k => (k, (lookupKey tags k).getD "")))

/-! ### Auxiliary notions for the round-trip analysis

`resolve_format` works by sequential whole-string replacement and
`parse_filename` by regex backtracking, so relating them needs a
token-level view of both: `joinToks` reassembles split parts,
`substByMp` is the intended effect of the replacement pass on one part,
`stagesOk` certifies that each replacement step only rewrites actual
placeholder parts (no placeholder token is formed accidentally across
part boundaries), and `chainOk` certifies the conditions under which the
backtracking matcher recovers each substituted value exactly (non-empty
values, non-empty separators that do not reappear inside
value-plus-separator). -/

/-- Concatenation of split parts. -/
def joinToks (toks : List (List Char)) : List Char := toks.foldr (fun a b => a ++ b) []

/-- The character list substituted for canonical key `k`. -/
def valOf (tags : List (String × String)) (k : String) : List Char :=
  ((lookupKey tags k).getD "").data

/-- The effect of running the replacement pass for the mapping list `mp`
on a single split part: a part equal to some placeholder token of `mp`
becomes its tag value, anything else is untouched. -/
def substByMp (mp : List (String × String)) (tags : List (String × String))
    (t : List Char) : List Char :=
  match mp.find? (fun pk => pk.1.data = t) with
  | some pk => valOf tags pk.2
  | none => t

/-- `tokStartAtB p pieces k`: position `k` of `joinToks pieces` is the
start of a piece that is exactly `p`. -/
def tokStartAtB (p : List Char) : List (List Char) → Nat → Bool
  | [], _ => false
  | t :: rest, k =>
    (k == 0 && t == p) || (Nat.ble t.length k && tokStartAtB p rest (k - t.length))

/-- Every occurrence of each placeholder token, at each stage of the
sequential replacement pass, lies at the start of a piece equal to that
token (so each `str.replace` rewrites exactly the placeholder parts). -/
def stagesOk (tags : List (String × String)) (pieces : List (List Char)) :
    List (String × String) → Bool
  | [] => true
  | pk :: mp =>
    let p := pk.1.data
    let s := joinToks pieces
    (List.range s.length).all
      (fun k => !(hasPfx p (s.drop k)) || tokStartAtB p pieces k) &&
    stagesOk tags (pieces.map (fun t => if t = p then valOf tags pk.2 else t)) mp

/-- `sepOk v l`: the separator `l` does not occur inside `v ++ l` before
its final position — the condition under which a non-greedy group
followed by the literal `l` stops exactly after `v`. -/
def sepOk (v l : List Char) : Bool :=
  (List.range v.length).all (fun k => k == 0 || !(hasPfx l ((v ++ l).drop k)))

/-- `chainOk tags toks`: walking the split parts, every known
placeholder has a non-empty substituted value and is followed either by
the trailing empty literal (the greedy tail case) or by a non-empty
literal part satisfying `sepOk`. -/
def chainOk (tags : List (String × String)) : List (List Char) → Bool
  | [] => true
  | [t] =>
    match knownPh t with
    | some k => !(valOf tags k).isEmpty
    | none => true
  | t :: t2 :: rest =>
    match knownPh t with
    | some k =>
      let v := valOf tags k
      if t2 = [] ∧ rest = [] then !v.isEmpty
      else
        (knownPh t2).isNone && !t2.isEmpty && !v.isEmpty && sepOk v t2 &&
          chainOk tags (t2 :: rest)
    | none => chainOk tags (t2 :: rest)

/-- Alignment of a pattern-part list with a piece list: the invariant
under which the backtracking matcher consumes exactly one piece per
part. -/
inductive PAlign : List FPart → List (List Char) → Prop
  | done : PAlign [] []
  | flit (l : List Char) (ps : List FPart) (vs : List (List Char)) :
      PAlign ps vs → PAlign (.lit l :: ps) (l :: vs)
  | fng (key : String) (v : List Char) (ps : List FPart) (vs : List (List Char)) :
      v ≠ [] →
      (∀ k, 1 ≤ k → k < v.length →
        matchParts ps ((v ++ joinToks vs).drop k) = none) →
      PAlign ps vs → PAlign (.hole key false :: ps) (v :: vs)
  | fgrEnd (key : String) (v : List Char) :
      v ≠ [] → PAlign [.hole key true] [v]
  | fgrEndLit (key : String) (v : List Char) :
      v ≠ [] → PAlign [.hole key true, .lit []] [v, []]

/-- The named captures the matcher returns under `PAlign`. -/
def groupsOf : List FPart → List (List Char) → List (String × List Char)
  | .lit _ :: ps, _ :: vs => groupsOf ps vs
  | .hole k _ :: ps, v :: vs => (k, v) :: groupsOf ps vs
  | _, _ => []

/-! ## Helper lemmas on mappings -/

theorem lookupKey_setKey_self {α : Type} (l : List (String × α)) (k : String) (v : α) :
    lookupKey (setKey l k v) k = some v := by
  induction l with
  | nil => simp [setKey, lookupKey]
  | cons hd tl ih =>
    by_cases h : hd.1 = k
    · simp [setKey, lookupKey, h]
    · simp only [setKey]
      rw [if_neg h]
      simpa [lookupKey, List.find?, h] using ih

theorem lookupKey_setKey_ne {α : Type} (l : List (String × α)) (k field : String) (v : α)
    (h : k ≠ field) : lookupKey (setKey l k v) field = lookupKey l field := by
  induction l with
  | nil => simp [setKey, lookupKey, List.find?, h]
  | cons hd tl ih =>
    by_cases h2 : hd.1 = k
    · simp [setKey, lookupKey, List.find?, h2, h]
    · simp only [setKey]
      rw [if_neg h2]
      by_cases h3 : hd.1 = field
      · simp [lookupKey, List.find?, h3]
      · simpa [lookupKey, List.find?, h3] using ih

theorem mem_setKey_self {α : Type} (l : List (String × α)) (k : String) (v : α) :
    (k, v) ∈ setKey l k v := by
  induction l with
  | nil => simp [setKey]
  | cons hd tl ih =>
    by_cases h : hd.1 = k
    · simp [setKey, h]
    · simp only [setKey]
      rw [if_neg h]
      exact List.mem_cons_of_mem _ ih

theorem mem_setKey_of_ne {α : Type} (l : List (String × α)) (k k' : String) (v v' : α)
    (hm : (k', v') ∈ l) (hne : k' ≠ k) : (k', v') ∈ setKey l k v := by
  induction l with
  | nil => simp at hm
  | cons hd tl ih =>
    by_cases h : hd.1 = k
    · simp only [setKey]
      rw [if_pos h]
      rcases List.mem_cons.mp hm with h1 | h1
      · exact absurd (by rw [← h1] at h; exact h) hne
      · exact List.mem_cons_of_mem _ h1
    · simp only [setKey]
      rw [if_neg h]
      rcases List.mem_cons.mp hm with h1 | h1
      · exact h1 ▸ List.mem_cons_self _ _
      · exact List.mem_cons_of_mem _ (ih h1)

/-! ## Claim C2 — the query normalizer on `"DJ A B2B DJ B - Live Set"` -/

/-- C2, counterexample.  The claim states
`clean_query "DJ A B2B DJ B - Live Set" = "DJ A DJ B"`.  In the source,
`" B2B "` does collapse to a single space, but no junk substring matches
`"- Live Set"` (the junk list contains `"Full Set"`, `"3-HR SET"`,
`"CLOSING SET"`, … but not `"Live Set"`, and the bracket pattern needs
brackets), so the suffix survives and the result is
`"DJ A DJ B - Live Set"`, not `"DJ A DJ B"`. -/
theorem C2_counterexample :
    clean_query "DJ A B2B DJ B - Live Set" = "DJ A DJ B - Live Set" ∧
    clean_query "DJ A B2B DJ B - Live Set" ≠ "DJ A DJ B" := by
  constructor
  · decide
  · decide

/-- C2, amended: on the exact input `"DJ A B2B DJ B - Live Set"` the
normalizer collapses `" B2B "` to a single space and normalizes
whitespace, but does not remove the `"- Live Set"` suffix; the result is
`"DJ A DJ B - Live Set"`. -/
theorem C2_amended :
    clean_query "DJ A B2B DJ B - Live Set" = "DJ A DJ B - Live Set" := by
  decide

/-! ## Claim C3 — query-construction precedence and fallback -/

/-- C3, counterexample.  With artist `"A"`, title `"T"`, album `"L"` and
catalog number `"C"` all known, and an oracle under which every search
(in particular the catalog-number search) returns zero candidates, the
worker issues exactly two searches: the catalog-number search and then
the free-text cleaned query — the album+artist structured tier is not
the next search issued, contradicting the claimed tier-by-tier cascade. -/
theorem C3_counterexample :
    searchesIssued (fun _ => 0) "A" "T" "L" "C" =
      [DQuery.catno "C", DQuery.free "A L T C"] ∧
    DQuery.free "A L T C" ≠ DQuery.albumArtist "A" "L" := by
  constructor
  · decide
  · decide

/-- C3, amended.  The first search uses the single highest-precedence
applicable tier (catalog number > album+artist > artist+track-title >
free text); when the catalog-number tier applies and returns zero
candidates, the one and only fallback issued is the free-text cleaned
query built from all four fields — intermediate structured tiers are
never attempted. -/
theorem C3_amended (artist title album catno : String) (oracle : DQuery → Nat)
    (hc : catno ≠ "") (h0 : oracle (DQuery.catno catno) = 0) :
    searchesIssued oracle artist title album catno =
      [DQuery.catno catno, DQuery.free (clean_query (String.mk
        (pyStrip (artist ++ " " ++ album ++ " " ++ title ++ " " ++ catno).data)))] := by
  unfold searchesIssued primaryQuery
  rw [if_pos hc]
  simp [h0, hc]

/-- Witness for C3_amended at concrete inputs. -/
theorem C3_amended_witness :
    searchesIssued (fun _ => 0) "Ar" "Ti" "Al" "Cat" =
      [DQuery.catno "Cat", DQuery.free "Ar Al Ti Cat"] := by
  have h := C3_amended "Ar" "Ti" "Al" "Cat" (fun _ => 0) (by decide) rfl
  exact h.trans (by decide)

/-! ## Claim C8 — compilation-flag normalization on load -/

/-- C8, counterexample.  The MP3 loader stores the raw first `TCMP` text
value and the FLAC loader the raw first `COMPILATION` value: a file
whose on-disk value is `"yes"` loads as `"yes"`, which is neither of the
two canonical boolean values. -/
theorem C8_counterexample :
    mp3CompilationOf (some ["yes"]) = "yes" ∧
    flacCompilationOf (some ["true"]) = some "true" ∧
    "yes" ≠ "0" ∧ "yes" ≠ "1" := by
  refine ⟨rfl, rfl, ?_, ?_⟩
  · decide
  · decide

/-- C8, amended.  Only the MP4 loader normalizes the compilation flag to
one of the two canonical values `"0"`/`"1"`; the MP3 and FLAC loaders
return the raw on-disk string unchanged (defaulting to `"0"` only when
the field is absent). -/
theorem C8_amended :
    (∀ cpil, mp4CompilationOf cpil = "0" ∨ mp4CompilationOf cpil = "1") ∧
    (∀ s l, mp3CompilationOf (some (s :: l)) = s) ∧
    (∀ s l, flacCompilationOf (some (s :: l)) = some s) ∧
    mp3CompilationOf none = "0" ∧ flacCompilationOf none = some "0" := by
  refine ⟨?_, fun s l => rfl, fun s l => rfl, rfl, rfl⟩
  intro cpil
  match cpil with
  | none => exact Or.inl rfl
  | some [] => exact Or.inl rfl
  | some (true :: _) => exact Or.inr rfl
  | some (false :: _) => exact Or.inl rfl

/-! ## Claim C9 — missing file vs. corrupt file in `load_tags` -/

/-- C9: a non-existent path raises `FileNotFoundError`; an existing file
whose per-format loader raises is caught and yields the empty mapping
(no `'filepath'` key), while a successful load always carries
`'filepath'`. -/
theorem C9_confirmed (fileExists : String → Bool) (ld : Loaders) (path : String) :
    (fileExists path = false →
      load_tags fileExists ld path = Except.error ("File not found: " ++ path)) ∧
    (fileExists path = true → loadAttempt ld (extOf path) path = .raised →
      load_tags fileExists ld path = Except.ok [] ∧
      lookupKey ([] : List (String × String)) "filepath" = none) ∧
    (∀ tags, fileExists path = true → loadAttempt ld (extOf path) path = .ok tags →
      load_tags fileExists ld path = Except.ok (setKey tags "filepath" path) ∧
      lookupKey (setKey tags "filepath" path) "filepath" = some path) := by
  refine ⟨fun h => ?_, fun h hr => ?_, fun tags h hok => ?_⟩
  · simp [load_tags, h]
  · simp [load_tags, h, hr, lookupKey, List.find?]
  · exact ⟨by simp [load_tags, h, hok], lookupKey_setKey_self tags "filepath" path⟩

/-- Witness for C9_confirmed: a missing `.mp3` file errors; an existing
`.mp3` file whose loader raises yields the empty mapping. -/
theorem C9_witness :
    load_tags (fun _ => false)
      ⟨fun _ => .ok [], fun _ => .ok [], fun _ => .ok []⟩ "x.mp3" =
      Except.error "File not found: x.mp3" ∧
    load_tags (fun _ => true)
      ⟨fun _ => .raised, fun _ => .ok [], fun _ => .ok []⟩ "y.mp3" =
      Except.ok [] := by
  constructor
  · exact (C9_confirmed (fun _ => false)
      ⟨fun _ => .ok [], fun _ => .ok [], fun _ => .ok []⟩ "x.mp3").1 rfl
  · exact ((C9_confirmed (fun _ => true)
      ⟨fun _ => .raised, fun _ => .ok [], fun _ => .ok []⟩ "y.mp3").2.1 rfl (by decide)).1

/-! ## Claim C10 — `.mp4` is listed but dispatched by neither
`load_tags` nor `save_tags` -/

/-- C10: `'.mp4'` is in `SUPPORTED_EXTENSIONS`, but the dispatch chains
handle only `.mp3` / `.flac` / `.m4a` / `.aac`: for an existing `.mp4`
file `load_tags` returns exactly the `'filepath'` singleton mapping, and
`save_tags` invokes no adapter and returns `False`. -/
theorem C10_confirmed (fileExists : String → Bool) (sv : Savers) (ld : Loaders)
    (path : String) (hex : fileExists path = true) (hext : extOf path = ".mp4") :
    ".mp4" ∈ SUPPORTED_EXTENSIONS ∧
    load_tags fileExists ld path = Except.ok [("filepath", path)] ∧
    save_tags fileExists sv path = false ∧
    saveDispatch (extOf path) = none := by
  refine ⟨by decide, ?_, ?_, ?_⟩
  · simp [load_tags, hex, loadAttempt, hext, setKey]
  · simp [save_tags, hex, saveDispatch, hext]
  · simp [saveDispatch, hext]

/-- Witness for C10_confirmed at a concrete path. -/
theorem C10_witness :
    load_tags (fun _ => true)
      ⟨fun _ => .ok [], fun _ => .ok [], fun _ => .ok []⟩ "track.mp4" =
      Except.ok [("filepath", "track.mp4")] ∧
    save_tags (fun _ => true) ⟨fun _ _ => some true⟩ "track.mp4" = false := by
  have h := C10_confirmed (fun _ => true) ⟨fun _ _ => some true⟩
    ⟨fun _ => .ok [], fun _ => .ok [], fun _ => .ok []⟩ "track.mp4" rfl (by decide)
  exact ⟨h.2.1, h.2.2.1⟩

/-! ## Claim C5 — cover-image replacement on save -/

/-- C5, counterexample.  `_save_flac` and `_save_mp4` do replace all
embedded images, but `_save_mp3` adds its `APIC` frame under the mutagen
key `'APIC:Cover'`: a pre-existing frame under any other description key
(here the common empty description, key `"APIC:"`) survives, so the file
ends up with two embedded images, not one. -/
theorem C5_counterexample :
    mp3CoverAfterSave [("APIC:", 7)] (some 9) = [("APIC:", 7), ("APIC:Cover", 9)] ∧
    (mp3CoverAfterSave [("APIC:", 7)] (some 9)).length ≠ 1 := by
  constructor
  · rfl
  · decide

/-- C5, amended.  Saving with a provided cover image replaces all
embedded images for the FLAC and MP4 adapters (the resulting store is
exactly the one new image); the MP3 adapter only replaces the `APIC`
frame whose description key is `'APIC:Cover'` — the new image is
present, but every previously embedded image under a different
description key remains alongside it. -/
theorem C5_amended (frames : List (String × Nat)) (pics covr : List Nat) (img : Nat) :
    flacPicturesAfterSave pics (some img) = [img] ∧
    mp4CovrAfterSave covr (some img) = [img] ∧
    ("APIC:Cover", img) ∈ mp3CoverAfterSave frames (some img) ∧
    (∀ k i, (k, i) ∈ frames → k ≠ "APIC:Cover" →
      (k, i) ∈ mp3CoverAfterSave frames (some img)) := by
  refine ⟨rfl, rfl, mem_setKey_self frames _ img, ?_⟩
  intro k i hm hne
  exact mem_setKey_of_ne frames _ k img i hm hne

/-- Witness for C5_amended: an old image with empty description key
survives an MP3 save alongside the new one. -/
theorem C5_amended_witness :
    flacPicturesAfterSave [7] (some 9) = [9] ∧
    ("APIC:", 7) ∈ mp3CoverAfterSave [("APIC:", 7)] (some 9) := by
  have h := C5_amended [("APIC:", 7)] [7] [7] 9
  exact ⟨h.1, h.2.2.2 "APIC:" 7 (by decide) (by decide)⟩

/-! ## Claim C7 — the apply step never writes empty proposed values -/

/-- C7: applying a reconciliation session writes only proposed values
that are truthy and non-whitespace (`if val and str(val).strip()`); any
field whose proposed entries are all empty/falsy — genre in particular —
keeps its previous local value, and `update_if_present` with an empty
value is the identity. -/
theorem C7_confirmed (md proposed : List (String × String)) (field : String)
    (h : ∀ v, (field, v) ∈ proposed → pyStrip v.data = []) :
    lookupKey (applyProposed md proposed) field = lookupKey md field ∧
    (∀ v, pyStrip v.data = [] → updateIfPresent md field v = md) := by
  constructor
  · induction proposed generalizing md with
    | nil => rfl
    | cons kv rest ih =>
      have hstep : lookupKey (updateIfPresent md kv.1 kv.2) field = lookupKey md field := by
        by_cases he : (pyStrip kv.2.data).isEmpty
        · simp [updateIfPresent, he]
        · by_cases hk : kv.1 = field
          · exfalso
            have := h kv.2 (by rw [← hk]; exact List.mem_cons_self _ _)
            rw [this] at he
            simp at he
          · simp only [updateIfPresent]
            rw [if_neg he]
            exact lookupKey_setKey_ne md kv.1 field kv.2 hk
      calc lookupKey (applyProposed (updateIfPresent md kv.1 kv.2) rest) field
          = lookupKey (updateIfPresent md kv.1 kv.2) field :=
            ih (updateIfPresent md kv.1 kv.2) (fun v hv => h v (List.mem_cons_of_mem _ hv))
        _ = lookupKey md field := hstep
  · intro v hv
    simp [updateIfPresent, hv]

/-- Witness for C7_confirmed: an empty proposed genre leaves the
existing genre `"Rock"` untouched while a non-empty artist is applied. -/
theorem C7_witness :
    lookupKey (applyProposed [("genre", "Rock")]
      [("artist", "New Artist"), ("genre", "")]) "genre" =
      lookupKey [("genre", "Rock")] "genre" := by
  refine (C7_confirmed [("genre", "Rock")]
    [("artist", "New Artist"), ("genre", "")] "genre" ?_).1
  intro v hv
  rcases List.mem_cons.mp hv with h1 | h1
  · have h2 := congrArg Prod.fst h1
    simp at h2
  · rcases List.mem_cons.mp h1 with h2 | h2
    · rw [show v = "" from congrArg Prod.snd h2]
      rfl
    · exact absurd h2 (List.not_mem_nil _)

/-! ## Claim C1 — the match scorer and duration -/

/-- C1, counterexample.  For a local track with duration 100s and two
candidates with the same title text (hence identical text similarity),
one 0 seconds away (within the claimed ≤ 4 s bonus band) and one 20
seconds away (inside the claimed > 15 s penalty band), the scorer in
the source computes the same score for both — there is no duration
bonus or penalty anywhere in the code, and neither candidate ranks
strictly higher.  (The tracklist entries are `dict`s, so the score is
the ratio of the local title against the full dict repr — here
`8/93 ≈ 0.086` even though the titles are equal — not against the
title text.) -/
theorem C1_counterexample :
    (100 - 100 : Int).natAbs ≤ 4 ∧ (120 - 100 : Int).natAbs = 20 ∧
    String.mk (strDt ⟨"abcx", "", "", 100, ""⟩) =
      "\x7b'title': 'abcx', 'position': '', 'duration': '', 'duration_seconds': 100, 'artists': ''\x7d" ∧
    scoreAgainst "abcx" ⟨"abcx", "", "", 100, ""⟩ = mkRat 8 93 ∧
    scoreAgainst "abcx" ⟨"abcx", "", "", 100, ""⟩ =
      scoreAgainst "abcx" ⟨"abcx", "", "", 120, ""⟩ ∧
    ¬ scoreAgainst "abcx" ⟨"abcx", "", "", 120, ""⟩ <
      scoreAgainst "abcx" ⟨"abcx", "", "", 100, ""⟩ := by
  refine ⟨by decide, by decide, rfl, by decide, by decide, by decide⟩

/-- C1, amended.  The scorer has no duration bands: it is the
text-similarity ratio of the local title against `str(dt)`, the repr of
the whole tracklist dict (the entries are `dict`s, so
`hasattr(dt, 'title')` is `False`), with no fixed ≤ 4 s bonus and no
> 15 s penalty; the candidate's duration influences the score only
through the digits of `duration_seconds` inside that repr text.  The
best-match loop compares with a strict `>`, so of two candidates where
the later one scores no higher, the selection is the same as with the
earlier candidate alone — the loop never ranks a later equally scored
candidate above an earlier one, whatever their durations. -/
theorem C1_amended (local_title : String) (dtA dtB : DTrack)
    (h : scoreAgainst local_title dtB ≤ scoreAgainst local_title dtA) :
    scoreAgainst local_title dtA =
      fuzzy_match_score local_title (String.mk (strDt dtA)) ∧
    bestDiscogsTrack local_title [dtA, dtB] =
      bestDiscogsTrack local_title [dtA] := by
  refine ⟨rfl, ?_⟩
  simp only [bestDiscogsTrack, List.foldl]
  by_cases h0 : (0 : ℚ) < scoreAgainst local_title dtA
  · rw [if_pos h0,
      if_neg (show ¬ (some dtA, scoreAgainst local_title dtA).2 <
        scoreAgainst local_title dtB from not_lt.mpr h)]
  · rw [if_neg h0,
      if_neg (show ¬ ((none : Option DTrack), (0 : ℚ)).2 <
        scoreAgainst local_title dtB from
        not_lt.mpr (h.trans (not_lt.mp h0)))]

/-- Witness for C1_amended: two dict entries with the same title and
durations 100 vs 120 around a local duration of 100 seconds score
equally (`8/93`), and the selection keeps the earlier one. -/
theorem C1_amended_witness :
    scoreAgainst "abcx" ⟨"abcx", "", "", 120, ""⟩ ≤
      scoreAgainst "abcx" ⟨"abcx", "", "", 100, ""⟩ ∧
    bestDiscogsTrack "abcx" [⟨"abcx", "", "", 100, ""⟩, ⟨"abcx", "", "", 120, ""⟩] =
      bestDiscogsTrack "abcx" [⟨"abcx", "", "", 100, ""⟩] :=
  ⟨by decide,
    (C1_amended "abcx" ⟨"abcx", "", "", 100, ""⟩ ⟨"abcx", "", "", 120, ""⟩
      (by decide)).2⟩

/-! ## Stable-sort lemmas for Claim C4 -/

theorem mem_insertStable {α : Type} (later : α → α → Bool) (x : α) (l : List α) (z : α) :
    z ∈ insertStable later x l ↔ z = x ∨ z ∈ l := by
  induction l with
  | nil => simp [insertStable]
  | cons y ys ih =>
    by_cases h : later y x = true
    · simp only [insertStable, if_pos h, List.mem_cons, ih]
      tauto
    · simp only [insertStable, if_neg h, List.mem_cons]

theorem insertStable_pairwise {α : Type} (later : α → α → Bool)
    (Hasym : ∀ a b, later a b = true → later b a = false)
    (Hnt : ∀ a b c, later a b = false → later b c = false → later a c = false)
    (x : α) (l : List α) (h : l.Pairwise (fun a b => later b a = false)) :
    (insertStable later x l).Pairwise (fun a b => later b a = false) := by
  induction l with
  | nil => simp [insertStable]
  | cons y ys ih =>
    rcases List.pairwise_cons.mp h with ⟨hy, hys⟩
    by_cases hyx : later y x = true
    · rw [insertStable, if_pos hyx]
      refine List.pairwise_cons.mpr ⟨?_, ih hys⟩
      intro z hz
      rcases (mem_insertStable later x ys z).mp hz with h1 | h1
      · rw [h1]; exact Hasym y x hyx
      · exact hy z h1
    · rw [insertStable, if_neg hyx]
      refine List.pairwise_cons.mpr ⟨?_, h⟩
      intro z hz
      rcases List.mem_cons.mp hz with h1 | h1
      · rw [h1]; exact Bool.eq_false_iff.mpr hyx
      · exact Hnt z y x (hy z h1) (Bool.eq_false_iff.mpr hyx)

theorem sortStable_pairwise {α : Type} (later : α → α → Bool)
    (Hasym : ∀ a b, later a b = true → later b a = false)
    (Hnt : ∀ a b c, later a b = false → later b c = false → later a c = false)
    (l : List α) :
    (sortStable later l).Pairwise (fun a b => later b a = false) := by
  induction l with
  | nil => exact List.Pairwise.nil
  | cons x xs ih => exact insertStable_pairwise later Hasym Hnt x (sortStable later xs) ih

/-- A stable sort leaves a list that is already sorted (with respect to
the non-strict companion of its comparator) unchanged. -/
theorem sortStable_eq_self {α : Type} (later : α → α → Bool) (l : List α)
    (h : l.Pairwise (fun a b => later b a = false)) : sortStable later l = l := by
  induction l with
  | nil => rfl
  | cons x xs ih =>
    rcases List.pairwise_cons.mp h with ⟨hx, hxs⟩
    rw [sortStable, ih hxs]
    cases xs with
    | nil => rfl
    | cons y ys =>
      rw [insertStable, if_neg (by
        have := hx y (List.mem_cons_self _ _)
        simp [this])]

theorem bnLt_asymm (p q : Bool × Nat) : bnLt p q = true → bnLt q p = false := by
  rcases p with ⟨b1, y1⟩
  rcases q with ⟨b2, y2⟩
  cases b1 <;> cases b2 <;> simp [bnLt] <;> omega

theorem bnLt_negtrans (p q r : Bool × Nat) :
    bnLt p q = false → bnLt q r = false → bnLt p r = false := by
  rcases p with ⟨b1, y1⟩
  rcases q with ⟨b2, y2⟩
  rcases r with ⟨b3, y3⟩
  cases b1 <;> cases b2 <;> cases b3 <;> simp [bnLt] <;> omega

/-- The worker's output is sorted: no later element must precede an
earlier one under the `(not is_cd, year)` ascending key. -/
theorem workerOrder_pairwise (ms : List WMatch) :
    (workerOrder ms).Pairwise (fun a b => bnLt (workerKey b) (workerKey a) = false) := by
  unfold workerOrder
  refine List.Pairwise.sublist (List.take_sublist 10 _) ?_
  exact sortStable_pairwise _
    (fun a b hab => bnLt_asymm (workerKey a) (workerKey b) hab)
    (fun a b c h1 h2 => bnLt_negtrans (workerKey a) (workerKey b) (workerKey c) h1 h2)
    ms

/-! ## Claim C4 — ordering of the presented candidate list -/

/-- C4, counterexample.  Two non-CD candidates with equal dialog sort
keys (same is-preferred-medium flag and the same computed score — the
score is 0 for both, as both call sites construct the dialog without a
query string): the claim says their relative order is the
catalog-assigned order `[a-2020, b-2010]`, but the pipeline puts the
2010 release first, because the worker pre-sorts by year ascending
before the dialog's stable sort. -/
theorem C4_counterexample :
    presentedMatches "" [⟨"X", "a", 2020, false⟩, ⟨"X", "b", 2010, false⟩] =
      [⟨"X", "b", 2010, false⟩, ⟨"X", "a", 2020, false⟩] ∧
    dialogKey "" ⟨"X", "a", 2020, false⟩ = dialogKey "" ⟨"X", "b", 2010, false⟩ ∧
    ([⟨"X", "b", 2010, false⟩, ⟨"X", "a", 2020, false⟩] : List WMatch) ≠
      [⟨"X", "a", 2020, false⟩, ⟨"X", "b", 2010, false⟩] := by
  refine ⟨by decide, by decide, by decide⟩

/-- C4, amended.  The dialog sorts by is-preferred-medium descending then
score descending, stably — but the list it stably sorts is the worker's
output, which is already ordered by `(not is_cd, year)` ascending and
truncated to ten entries.  With the empty query string both call sites
pass, every score is 0 and the dialog's sort is the identity: candidates
equal on both dialog keys appear in the worker's year-ascending order
(catalog-assigned order only breaking year ties), not in catalog order. -/
theorem C4_amended (ms : List WMatch) : presentedMatches "" ms = workerOrder ms := by
  unfold presentedMatches dialogOrder
  apply sortStable_eq_self
  refine (workerOrder_pairwise ms).imp ?_
  intro a b hab
  have ha : calculatedScore "" a = 0 := rfl
  have hb : calculatedScore "" b = 0 := rfl
  simp only [dialogKey, ha, hb, bqGt, bnLt, workerKey] at hab ⊢
  cases hca : a.is_cd <;> cases hcb : b.is_cd <;>
    simp [hca, hcb] at hab ⊢

/-! ## Round-trip analysis for Claim C6: the replacement pass -/

theorem hasPfx_append_self (p x : List Char) : hasPfx p (p ++ x) = true := by
  induction p with
  | nil => rfl
  | cons c cs ih => simp [hasPfx, ih]

theorem hasPfx_nil_false (p : List Char) (hp : p ≠ []) : hasPfx p [] = false := by
  cases p with
  | nil => exact absurd rfl hp
  | cons c cs => rfl

/-- A prefix test is decided inside the first `|p|` characters. -/
theorem hasPfx_confine (p x y : List Char) (h : p.length ≤ x.length) :
    hasPfx p (x ++ y) = hasPfx p x := by
  induction p generalizing x with
  | nil => rfl
  | cons c cs ih =>
    cases x with
    | nil => simp at h
    | cons d ds =>
      simp only [List.cons_append, hasPfx, List.append_eq]
      rw [ih ds (by simpa using h)]

theorem replFuel_nil (p v : List Char) (fuel : Nat) : replFuel p v fuel [] = [] := by
  cases fuel <;> rfl

theorem replFuel_mono (p v : List Char) (hp : p ≠ []) :
    ∀ fuel1 fuel2 s, s.length ≤ fuel1 → s.length ≤ fuel2 →
      replFuel p v fuel1 s = replFuel p v fuel2 s := by
  intro fuel1
  induction fuel1 with
  | zero =>
    intro fuel2 s hs _
    have : s = [] := List.length_eq_zero.mp (Nat.le_zero.mp hs)
    rw [this, replFuel_nil, replFuel_nil]
  | succ n ih =>
    intro fuel2 s hs1 hs2
    cases s with
    | nil => rw [replFuel_nil, replFuel_nil]
    | cons c t =>
      cases fuel2 with
      | zero => simp at hs2
      | succ m =>
        have hplen : 1 ≤ p.length := by
          cases p with
          | nil => exact absurd rfl hp
          | cons _ _ => simp
        simp only [replFuel]
        by_cases h : hasPfx p (c :: t) = true
        · rw [if_pos h, if_pos h]
          have hlen : ((c :: t).drop p.length).length ≤ n := by
            simp only [List.length_drop, List.length_cons]
            simp only [List.length_cons] at hs1
            omega
          have hlen2 : ((c :: t).drop p.length).length ≤ m := by
            simp only [List.length_drop, List.length_cons]
            simp only [List.length_cons] at hs2
            omega
          rw [ih m _ hlen hlen2]
        · rw [if_neg h, if_neg h]
          have hlen : t.length ≤ n := by
            simp only [List.length_cons] at hs1
            omega
          have hlen2 : t.length ≤ m := by
            simp only [List.length_cons] at hs2
            omega
          rw [ih m t hlen hlen2]

theorem replFuel_eq (p v : List Char) (hp : p ≠ []) (fuel : Nat) (s : List Char)
    (h : s.length ≤ fuel) : replFuel p v fuel s = replaceAll p v s :=
  replFuel_mono p v hp fuel s.length s h (Nat.le_refl _)

/-- Unfolding `replaceAll` at a position where the pattern matches. -/
theorem replaceAll_pos (p v s : List Char) (hp : p ≠ []) (h : hasPfx p s = true) :
    replaceAll p v s = v ++ replaceAll p v (s.drop p.length) := by
  cases s with
  | nil =>
    rw [hasPfx_nil_false p hp] at h
    exact absurd h (by simp)
  | cons c t =>
    have hplen : 1 ≤ p.length := by
      cases p with
      | nil => exact absurd rfl hp
      | cons _ _ => simp
    show replFuel p v (c :: t).length (c :: t) = _
    simp only [List.length_cons, replFuel]
    rw [if_pos h]
    congr 1
    refine replFuel_eq p v hp t.length _ ?_
    simp only [List.length_drop, List.length_cons]
    omega

/-- Unfolding `replaceAll` at a position where the pattern fails. -/
theorem replaceAll_neg (p v : List Char) (c : Char) (t : List Char)
    (h : hasPfx p (c :: t) = false) :
    replaceAll p v (c :: t) = c :: replaceAll p v t := by
  show replFuel p v (c :: t).length (c :: t) = _
  simp only [List.length_cons, replFuel]
  rw [if_neg (by simp [h])]
  rfl

theorem replaceAll_token (p v b : List Char) (hp : p ≠ []) :
    replaceAll p v (p ++ b) = v ++ replaceAll p v b := by
  rw [replaceAll_pos p v (p ++ b) hp (hasPfx_append_self p b), List.drop_left]

theorem replaceAll_append_noocc (p v a b : List Char)
    (h : ∀ k, k < a.length → hasPfx p ((a ++ b).drop k) = false) :
    replaceAll p v (a ++ b) = a ++ replaceAll p v b := by
  induction a with
  | nil => rfl
  | cons c a2 ih =>
    have h0 : hasPfx p (c :: (a2 ++ b)) = false := by
      simpa using h 0 (by simp)
    rw [List.cons_append, replaceAll_neg p v c (a2 ++ b) h0]
    have h2 : replaceAll p v (a2 ++ b) = a2 ++ replaceAll p v b := by
      apply ih
      intro k hk
      have h3 := h (k + 1) (by simpa using Nat.succ_lt_succ hk)
      simpa using h3
    rw [h2, List.cons_append]

/-- Joining a cons unfolds to an append. -/
theorem joinToks_cons (t : List Char) (rest : List (List Char)) :
    joinToks (t :: rest) = t ++ joinToks rest := rfl

/-- If every occurrence of `p` in the joined pieces lies at the start of
a piece equal to `p`, then one `str.replace` pass rewrites exactly those
pieces. -/
theorem replaceAll_join (p v : List Char) (hp : p ≠ []) (pieces : List (List Char))
    (H : ∀ k, hasPfx p ((joinToks pieces).drop k) = true → tokStartAtB p pieces k = true) :
    replaceAll p v (joinToks pieces) =
      joinToks (pieces.map (fun t => if t = p then v else t)) := by
  have hplen : 1 ≤ p.length := by
    cases p with
    | nil => exact absurd rfl hp
    | cons _ _ => simp
  induction pieces with
  | nil => rfl
  | cons t rest ih =>
    by_cases ht : t = p
    · rw [joinToks_cons, ht, replaceAll_token p v _ hp, List.map_cons, if_pos rfl,
        joinToks_cons]
      congr 1
      apply ih
      intro k hk
      have hdrop : ((p ++ joinToks rest).drop (p.length + k)) = (joinToks rest).drop k :=
        List.drop_append k
      have h2 := H (p.length + k) (by
        rw [joinToks_cons, ht, hdrop]
        exact hk)
      rw [ht] at h2
      simp only [tokStartAtB, Bool.or_eq_true, Bool.and_eq_true, beq_iff_eq] at h2
      rcases h2 with ⟨hz, _⟩ | ⟨_, h3⟩
      · omega
      · simpa using h3
    · rw [joinToks_cons, replaceAll_append_noocc p v t _ (by
        intro k hk
        cases hpp : hasPfx p ((t ++ joinToks rest).drop k) with
        | false => rfl
        | true =>
          have h2 := H k (by rw [joinToks_cons]; exact hpp)
          simp only [tokStartAtB, Bool.or_eq_true, Bool.and_eq_true, beq_iff_eq] at h2
          rcases h2 with ⟨hz, hteq⟩ | ⟨hble, _⟩
          · exact absurd hteq ht
          · have := Nat.le_of_ble_eq_true hble
            omega)]
      rw [List.map_cons, if_neg ht, joinToks_cons]
      congr 1
      apply ih
      intro k hk
      have hdrop : ((t ++ joinToks rest).drop (t.length + k)) = (joinToks rest).drop k :=
        List.drop_append k
      have h2 := H (t.length + k) (by rw [joinToks_cons, hdrop]; exact hk)
      simp only [tokStartAtB, Bool.or_eq_true, Bool.and_eq_true, beq_iff_eq] at h2
      rcases h2 with ⟨hz, hteq⟩ | ⟨_, h3⟩
      · exact absurd hteq ht
      · simpa using h3

/-- The sequential replacement pass, run left to right over a mapping
list, substitutes exactly the placeholder parts when every stage's
occurrences are accounted for (`stagesOk`), placeholder tokens contain
`'%'`, and substituted values do not. -/
theorem foldSubst (tags : List (String × String)) :
    ∀ (mp : List (String × String)) (pieces : List (List Char)),
      (∀ pk ∈ mp, '%' ∈ pk.1.data) →
      (∀ pk ∈ mp, '%' ∉ valOf tags pk.2) →
      stagesOk tags pieces mp = true →
      mp.foldl (fun acc pk => replaceAll pk.1.data (valOf tags pk.2) acc)
        (joinToks pieces) =
      joinToks (pieces.map (substByMp mp tags)) := by
  intro mp
  induction mp with
  | nil =>
    intro pieces _ _ _
    have : ∀ t ∈ pieces, substByMp [] tags t = t := by
      intro t _
      rfl
    rw [List.map_congr_left this, List.map_id']
    rfl
  | cons pk mp2 ih =>
    intro pieces hmp hvals hst
    simp only [stagesOk, Bool.and_eq_true] at hst
    obtain ⟨h1, h2⟩ := hst
    have hp : pk.1.data ≠ [] := by
      have hmem := hmp pk (List.mem_cons_self _ _)
      intro hcon
      rw [hcon] at hmem
      simp at hmem
    have H : ∀ k, hasPfx pk.1.data ((joinToks pieces).drop k) = true →
        tokStartAtB pk.1.data pieces k = true := by
      intro k hk
      by_cases hkl : k < (joinToks pieces).length
      · have h3 := (List.all_eq_true.mp h1) k (List.mem_range.mpr hkl)
        simp only [Bool.or_eq_true, Bool.not_eq_eq_eq_not, Bool.not_true] at h3
        rcases h3 with h3 | h3
        · rw [hk] at h3
          simp at h3
        · exact h3
      · exfalso
        rw [List.drop_eq_nil_of_le (Nat.le_of_not_lt hkl)] at hk
        rw [hasPfx_nil_false _ hp] at hk
        simp at hk
    rw [List.foldl_cons, replaceAll_join pk.1.data (valOf tags pk.2) hp pieces H,
      ih (pieces.map (fun t => if t = pk.1.data then valOf tags pk.2 else t))
        (fun pk2 hm => hmp pk2 (List.mem_cons_of_mem _ hm))
        (fun pk2 hm => hvals pk2 (List.mem_cons_of_mem _ hm)) h2,
      List.map_map]
    congr 1
    apply List.map_congr_left
    intro t _
    show substByMp mp2 tags (if t = pk.1.data then valOf tags pk.2 else t) =
      substByMp (pk :: mp2) tags t
    by_cases ht : t = pk.1.data
    · rw [if_pos ht]
      have hnone : mp2.find? (fun pkx => pkx.1.data = valOf tags pk.2) = none := by
        refine List.find?_eq_none.mpr ?_
        intro pk2 hm
        simp only [decide_eq_true_eq]
        intro heq
        have hx := hmp pk2 (List.mem_cons_of_mem _ hm)
        rw [heq] at hx
        exact (hvals pk (List.mem_cons_self _ _)) hx
      show substByMp mp2 tags (valOf tags pk.2) = substByMp (pk :: mp2) tags t
      unfold substByMp
      rw [hnone, List.find?_cons_of_pos _ (by simp [ht])]
    · rw [if_neg ht]
      show substByMp mp2 tags t = substByMp (pk :: mp2) tags t
      unfold substByMp
      rw [List.find?_cons_of_neg _ (by
        simp only [decide_eq_true_eq]
        exact fun hcon => ht hcon.symm)]

/-- A successful placeholder match decomposes the input. -/
theorem phMatchAt_sound (s tok rest : List Char)
    (h : phMatchAt s = some (tok, rest)) : s = tok ++ rest ∧ tok ≠ [] := by
  cases s with
  | nil => exact absurd h (by simp [phMatchAt])
  | cons c t =>
    simp only [phMatchAt] at h
    by_cases hc : c = '%'
    · rw [if_pos hc] at h
      cases hd : t.drop (t.takeWhile isLowerAZ).length with
      | nil => rw [hd] at h; exact absurd h (by simp)
      | cons c2 r2 =>
        rw [hd] at h
        dsimp only at h
        by_cases hc2 : c2 = '%' ∧ ¬ (t.takeWhile isLowerAZ).isEmpty
        · rw [if_pos hc2] at h
          have htok : tok = '%' :: ((t.takeWhile isLowerAZ) ++ ['%']) := by
            have := (Option.some.injEq _ _).mp h
            exact (congrArg Prod.fst this).symm
          have hrest : rest = r2 := by
            have := (Option.some.injEq _ _).mp h
            exact (congrArg Prod.snd this).symm
          constructor
          · rw [htok, hrest, hc]
            have hdw : t.drop (t.takeWhile isLowerAZ).length = t.dropWhile isLowerAZ := by
              have h1 := List.takeWhile_append_dropWhile (p := isLowerAZ) (l := t)
              calc t.drop (t.takeWhile isLowerAZ).length
                  = ((t.takeWhile isLowerAZ) ++ (t.dropWhile isLowerAZ)).drop
                      (t.takeWhile isLowerAZ).length := by rw [h1]
                _ = t.dropWhile isLowerAZ := List.drop_left _ _
            have ht : t = (t.takeWhile isLowerAZ) ++ ('%' :: r2) := by
              have h1 := List.takeWhile_append_dropWhile (p := isLowerAZ) (l := t)
              rw [← hdw, hd, hc2.1] at h1
              exact h1.symm
            rw [List.cons_append]
            congr 1
            rw [List.append_assoc]
            exact ht
          · rw [htok]
            simp
        · rw [if_neg hc2] at h
          exact absurd h (by simp)
    · rw [if_neg hc] at h
      exact absurd h (by simp)

/-- The token scanner reassembles to its input. -/
theorem tokSplit_join : ∀ fuel acc s, s.length ≤ fuel →
    joinToks (tokSplitFuel fuel acc s) = acc.reverse ++ s := by
  intro fuel
  induction fuel with
  | zero =>
    intro acc s hs
    have : s = [] := List.length_eq_zero.mp (Nat.le_zero.mp hs)
    rw [this]
    show joinToks [acc.reverse ++ []] = acc.reverse ++ []
    show (acc.reverse ++ []) ++ [] = acc.reverse ++ []
    simp
  | succ n ih =>
    intro acc s hs
    cases hm : phMatchAt s with
    | some tr =>
      obtain ⟨hsplit, hne⟩ := phMatchAt_sound s tr.1 tr.2 (by rw [hm])
      have hlen : tr.2.length ≤ n := by
        have h1 : tr.1.length ≥ 1 := by
          cases htr : tr.1 with
          | nil => exact absurd htr hne
          | cons _ _ => simp
        have : s.length = tr.1.length + tr.2.length := by
          rw [hsplit, List.length_append]
        omega
      simp only [tokSplitFuel, hm]
      rw [joinToks_cons, joinToks_cons, ih [] tr.2 hlen]
      rw [hsplit]
      simp
    | none =>
      cases s with
      | nil =>
        simp only [tokSplitFuel, hm]
        rfl
      | cons c t =>
        simp only [tokSplitFuel, hm]
        rw [ih (c :: acc) t (by simpa using Nat.le_of_succ_le_succ hs)]
        simp

/-- `re.split` parts reassemble to the format string. -/
theorem tokensOf_join (f : List Char) : joinToks (tokensOf f) = f := by
  have h := tokSplit_join (f.length + 1) [] f (by omega)
  simpa using h

/-! ## Round-trip analysis for Claim C6: the matcher -/

theorem resolve_format_subst (f : String) (tags : List (String × String))
    (hvals : ∀ pk ∈ phMapping, '%' ∉ valOf tags pk.2)
    (hst : stagesOk tags (tokensOf f.data) phMapping = true) :
    resolve_format f tags =
      String.mk (joinToks ((tokensOf f.data).map (substByMp phMapping tags))) := by
  unfold resolve_format
  refine congrArg String.mk ?_
  conv_lhs => rw [← tokensOf_join f.data]
  exact foldSubst tags phMapping (tokensOf f.data) (by decide) hvals hst

/-- In `(range n).filterMap g`, if all positions before `m` map to
`none` and `m` maps to `some b`, then `b` is the head. -/
theorem filterMap_range_head {β : Type} (g : Nat → Option β) (m n : Nat) (b : β)
    (hmn : m < n) (h0 : ∀ j, j < m → g j = none) (hm : g m = some b) :
    ((List.range n).filterMap g).head? = some b := by
  have hr : List.range n = List.range' 0 m 1 ++ List.range' m (n - m) 1 := by
    rw [List.range_eq_range' n]
    have := List.range'_append 0 m (n - m) 1
    simp only [Nat.zero_add, Nat.one_mul] at this
    rw [this]
    congr 1
    omega
  rw [hr, List.filterMap_append]
  have hnil : (List.range' 0 m 1).filterMap g = [] := by
    refine List.filterMap_eq_nil.mpr ?_
    intro j hj
    rcases List.mem_range'.mp hj with ⟨i, hi, hji⟩
    exact h0 j (by omega)
  rw [hnil, List.nil_append]
  have hcons : List.range' m (n - m) 1 = m :: List.range' (m + 1) (n - m - 1) 1 := by
    conv_lhs => rw [show n - m = (n - m - 1) + 1 by omega]
    exact List.range'_succ _ _ _
  rw [hcons, List.filterMap_cons_some hm]
  rfl

/-- If `m` is the only position of `range n` mapping to `some`, the
`filterMap` is the singleton. -/
theorem filterMap_range_singleton {β : Type} (g : Nat → Option β) (m n : Nat) (b : β)
    (hmn : m < n) (h0 : ∀ j, j < n → j ≠ m → g j = none) (hm : g m = some b) :
    (List.range n).filterMap g = [b] := by
  have hr : List.range n = List.range' 0 m 1 ++ List.range' m (n - m) 1 := by
    rw [List.range_eq_range' n]
    have := List.range'_append 0 m (n - m) 1
    simp only [Nat.zero_add, Nat.one_mul] at this
    rw [this]
    congr 1
    omega
  rw [hr, List.filterMap_append]
  have hnil : (List.range' 0 m 1).filterMap g = [] := by
    refine List.filterMap_eq_nil.mpr ?_
    intro j hj
    rcases List.mem_range'.mp hj with ⟨i, hi, hji⟩
    exact h0 j (by omega) (by omega)
  have hcons : List.range' m (n - m) 1 = m :: List.range' (m + 1) (n - m - 1) 1 := by
    conv_lhs => rw [show n - m = (n - m - 1) + 1 by omega]
    exact List.range'_succ _ _ _
  have hnil2 : (List.range' (m + 1) (n - m - 1) 1).filterMap g = [] := by
    refine List.filterMap_eq_nil.mpr ?_
    intro j hj
    rcases List.mem_range'.mp hj with ⟨i, hi, hji⟩
    exact h0 j (by omega) (by omega)
  rw [hnil, List.nil_append, hcons, List.filterMap_cons_some hm, hnil2]

/-- A predicate true on every element leaves `takeWhile` the
identity. -/
theorem takeWhile_nonl (s : List Char) (h : ∀ c ∈ s, c ≠ '\n') :
    s.takeWhile (fun c => c != '\n') = s := by
  induction s with
  | nil => rfl
  | cons a t ih =>
    have ha : (a != '\n') = true := by
      simpa using h a (by simp)
    rw [List.takeWhile_cons, ha]
    rw [if_pos rfl, ih (fun c hc => h c (by simp [hc]))]

/-- On a newline-free remainder, the empty pattern (the `$` position)
accepts exactly the empty string. -/
theorem matchParts_nil_nonl (x : List Char) (hx : ∀ c ∈ x, c ≠ '\n') :
    matchParts [] x = (if x.isEmpty = true then some [] else none) := by
  show (if x = [] ∨ x = ['\n'] then some [] else none) = _
  cases x with
  | nil => rfl
  | cons a t =>
    rw [if_neg ?_]
    · rfl
    · rintro (h | h)
      · exact List.cons_ne_nil a t h
      · exact hx a (by simp) (by injection h)

/-- On a newline-free remainder, an empty-literal part acts as the empty
pattern. -/
theorem matchParts_litNil (x : List Char) (hx : ∀ c ∈ x, c ≠ '\n') :
    matchParts [FPart.lit []] x = (if x.isEmpty = true then some [] else none) := by
  show (if hasPfx [] x = true then matchParts [] (x.drop ([] : List Char).length) else none) = _
  rw [if_pos (show hasPfx [] x = true from rfl)]
  exact matchParts_nil_nonl x hx

/-- A greedy final group followed only by an end-matching tail pattern
captures the whole remaining (newline-free) input. -/
theorem matchParts_greedy_end (key : String) (ps : List FPart) (v : List Char)
    (hv : v ≠ []) (hnl : ∀ c ∈ v, c ≠ '\n')
    (hps : ∀ x, (∀ c ∈ x, c ≠ '\n') →
      matchParts ps x = (if x.isEmpty = true then some [] else none)) :
    matchParts (FPart.hole key true :: ps) v = some [(key, v)] := by
  have hvlen : 1 ≤ v.length := by
    cases v with
    | nil => exact absurd rfl hv
    | cons _ _ => simp
  simp only [matchParts]
  rw [takeWhile_nonl v hnl]
  have hg : (List.range v.length).filterMap
      (fun j => (matchParts ps (v.drop (j + 1))).map (fun r => (v.take (j + 1), r))) =
      [(v, [])] := by
    refine filterMap_range_singleton _ (v.length - 1) _ _ (by omega) ?_ ?_
    · intro j hj1 hj2
      rw [hps _ (fun c hc => hnl c (List.mem_of_mem_drop hc))]
      have hne : ¬ (v.drop (j + 1)).isEmpty = true := by
        rw [List.isEmpty_iff, List.drop_eq_nil_iff_le]
        omega
      rw [if_neg hne]
      rfl
    · have h1 : v.length - 1 + 1 = v.length := by omega
      rw [h1, List.drop_length, List.take_length, hps [] (by simp)]
      rfl
  rw [Bool.cond_true, hg]
  rfl

/-- Under `PAlign`, on a newline-free subject the backtracking matcher
succeeds and captures exactly the aligned pieces. -/
theorem matchOfAlign : ∀ ps vs, PAlign ps vs →
    (∀ c ∈ joinToks vs, c ≠ '\n') →
    matchParts ps (joinToks vs) = some (groupsOf ps vs) := by
  intro ps vs h
  induction h with
  | done => intro _; rfl
  | flit l ps vs hal ih =>
    intro hnl
    simp only [joinToks_cons] at hnl
    show matchParts (.lit l :: ps) (joinToks (l :: vs)) = _
    rw [joinToks_cons]
    simp only [matchParts]
    rw [if_pos (hasPfx_append_self l _), List.drop_left,
      ih (fun c hc => hnl c (List.mem_append.mpr (Or.inr hc)))]
    rfl
  | fng key v ps vs hv hnone hal ih =>
    intro hnl
    simp only [joinToks_cons] at hnl
    have hvlen : 1 ≤ v.length := by
      cases v with
      | nil => exact absurd rfl hv
      | cons _ _ => simp
    show matchParts (.hole key false :: ps) (joinToks (v :: vs)) = _
    rw [joinToks_cons]
    simp only [matchParts]
    rw [takeWhile_nonl (v ++ joinToks vs) hnl]
    have hslen : (v ++ joinToks vs).length = v.length + (joinToks vs).length := by
      simp
    have hg : ((List.range (v ++ joinToks vs).length).filterMap
        (fun j => (matchParts ps ((v ++ joinToks vs).drop (j + 1))).map
          (fun r => ((v ++ joinToks vs).take (j + 1), r)))).head? =
        some (v, groupsOf ps vs) := by
      refine filterMap_range_head _ (v.length - 1) _ _ (by omega) ?_ ?_
      · intro j hj
        rw [hnone (j + 1) (by omega) (by omega)]
        rfl
      · have h1 : v.length - 1 + 1 = v.length := by omega
        rw [h1, List.drop_left, List.take_left,
          ih (fun c hc => hnl c (List.mem_append.mpr (Or.inr hc)))]
        rfl
    rw [Bool.cond_false, hg]
    rfl
  | fgrEnd key v hv =>
    intro hnl
    have hj : joinToks [v] = v := by
      show v ++ [] = v
      simp
    rw [hj] at hnl
    show matchParts [FPart.hole key true] (joinToks [v]) = some [(key, v)]
    rw [hj]
    exact matchParts_greedy_end key [] v hv hnl
      (fun x hx => matchParts_nil_nonl x hx)
  | fgrEndLit key v hv =>
    intro hnl
    have hj : joinToks [v, []] = v := by
      show v ++ ([] ++ []) = v
      simp
    rw [hj] at hnl
    show matchParts [FPart.hole key true, FPart.lit []] (joinToks [v, []]) = some [(key, v)]
    rw [hj]
    exact matchParts_greedy_end key [FPart.lit []] v hv hnl
      (fun x hx => matchParts_litNil x hx)

theorem substByMp_known (tags : List (String × String)) (t : List Char) (k : String)
    (h : knownPh t = some k) : substByMp phMapping tags t = valOf tags k := by
  unfold knownPh at h
  unfold substByMp
  cases hf : phMapping.find? (fun pk => pk.1.data = t) with
  | none => rw [hf] at h; simp at h
  | some pk =>
    rw [hf] at h
    simp only [Option.map_some', Option.some.injEq] at h
    show valOf tags pk.2 = valOf tags k
    rw [h]

theorem substByMp_unknown (tags : List (String × String)) (t : List Char)
    (h : knownPh t = none) : substByMp phMapping tags t = t := by
  unfold knownPh at h
  unfold substByMp
  cases hf : phMapping.find? (fun pk => pk.1.data = t) with
  | none => rfl
  | some pk => rw [hf] at h; simp at h

/-- `os.path.splitext` is the identity split on a dot-free string. -/
theorem splitExt_no_dot (s : List Char) (h : ∀ c ∈ s, c ≠ '.') :
    splitExt s = (s, []) := by
  have hnil : lastIdxOf '.' s = none := by
    unfold lastIdxOf
    have hf : s.enum.filter (fun p => p.2 = '.') = [] := by
      refine List.filter_eq_nil.mpr ?_
      intro p hp
      have hmem : p.2 ∈ s := by
        have := List.enum_map_snd s
        rw [← this]
        exact List.mem_map.mpr ⟨p, hp, rfl⟩
      simpa using h p.2 hmem
    rw [hf]
    rfl
  unfold splitExt
  rw [hnil]

theorem knownPh_nil : knownPh ([] : List Char) = none := by decide

/-- From `chainOk`, the compiled parts align with the substituted pieces
and the matcher's captures are the substituted placeholder values. -/
theorem alignOfChain (tags : List (String × String)) :
    ∀ (toks : List (List Char)) (i n : Nat) (lastEmpty : Bool),
      n = i + toks.length →
      (∀ h : toks ≠ [], lastEmpty = ((toks.getLast h).isEmpty : Bool)) →
      chainOk tags toks = true →
      PAlign (partsOfAux n lastEmpty i toks) (toks.map (substByMp phMapping tags)) ∧
      groupsOf (partsOfAux n lastEmpty i toks) (toks.map (substByMp phMapping tags)) =
        toks.filterMap (fun t => (knownPh t).map (fun k => (k, valOf tags k))) := by
  intro toks
  induction toks with
  | nil =>
    intro i n le hn hl hc
    exact ⟨PAlign.done, rfl⟩
  | cons t rest ih =>
    intro i n le hn hl hc
    cases rest with
    | nil =>
      cases hk : knownPh t with
      | some k =>
        have hc2 : (!(valOf tags k).isEmpty) = true := by
          simp only [chainOk, hk] at hc
          exact hc
        have hv : valOf tags k ≠ [] := by
          intro hcon
          rw [hcon] at hc2
          simp at hc2
        have hgreedy : ((i == n - 1) || ((i == n - 2) && le)) = true := by
          have h1 : (i == n - 1) = true := by
            have h2 : i = n - 1 := by
              simp only [List.length_cons, List.length_nil] at hn
              omega
            simp [h2]
          simp [h1]
        have hparts : partsOfAux n le i [t] = [FPart.hole k true] := by
          simp only [partsOfAux, hk, hgreedy]
        have hpc : [t].map (substByMp phMapping tags) = [valOf tags k] := by
          simp [substByMp_known tags t k hk]
        rw [hparts, hpc]
        refine ⟨PAlign.fgrEnd k (valOf tags k) hv, ?_⟩
        simp [groupsOf, hk]
      | none =>
        have hparts : partsOfAux n le i [t] = [FPart.lit t] := by
          simp only [partsOfAux, hk]
        have hpc : [t].map (substByMp phMapping tags) = [t] := by
          simp [substByMp_unknown tags t hk]
        rw [hparts, hpc]
        refine ⟨PAlign.flit t [] [] PAlign.done, ?_⟩
        simp [groupsOf, hk]
    | cons t2 rest2 =>
      cases hk : knownPh t with
      | none =>
        have hch : chainOk tags (t2 :: rest2) = true := by
          simp only [chainOk, hk] at hc
          exact hc
        have hl2 : ∀ h : (t2 :: rest2) ≠ [],
            le = (((t2 :: rest2).getLast h).isEmpty : Bool) := by
          intro h2
          have h3 := hl (by simp)
          rw [h3]
          congr 1
        obtain ⟨ha, hg⟩ := ih (i + 1) n le (by
          simp only [List.length_cons] at hn ⊢
          omega) hl2 hch
        have hparts : partsOfAux n le i (t :: t2 :: rest2) =
            FPart.lit t :: partsOfAux n le (i + 1) (t2 :: rest2) := by
          simp only [partsOfAux, hk]
        have hmap : (t :: t2 :: rest2).map (substByMp phMapping tags) =
            t :: (t2 :: rest2).map (substByMp phMapping tags) := by
          simp [substByMp_unknown tags t hk]
        rw [hparts, hmap]
        refine ⟨PAlign.flit _ _ _ ha, ?_⟩
        show groupsOf (partsOfAux n le (i + 1) (t2 :: rest2))
          ((t2 :: rest2).map (substByMp phMapping tags)) = _
        rw [hg]
        simp [hk]
      | some k =>
        simp only [chainOk, hk] at hc
        by_cases hend : t2 = [] ∧ rest2 = []
        · rw [if_pos hend] at hc
          obtain ⟨ht2, hr2⟩ := hend
          subst ht2
          subst hr2
          have hv : valOf tags k ≠ [] := by
            intro hcon
            rw [hcon] at hc
            simp at hc
          have hle : le = true := by
            have h3 := hl (by simp)
            simpa using h3
          have hgreedy : ((i == n - 1) || ((i == n - 2) && le)) = true := by
            have h2 : (i == n - 2) = true := by
              have h3 : i = n - 2 := by
                simp only [List.length_cons, List.length_nil] at hn
                omega
              simp [h3]
            simp [h2, hle]
          have hparts : partsOfAux n le i [t, []] =
              [FPart.hole k true, FPart.lit []] := by
            simp only [partsOfAux, hk, hgreedy, knownPh_nil]
          have hpc : [t, ([] : List Char)].map (substByMp phMapping tags) =
              [valOf tags k, []] := by
            simp [substByMp_known tags t k hk, substByMp_unknown tags [] knownPh_nil]
          rw [hparts, hpc]
          refine ⟨PAlign.fgrEndLit k (valOf tags k) hv, ?_⟩
          simp [groupsOf, hk, knownPh_nil]
        · rw [if_neg hend] at hc
          simp only [Bool.and_eq_true] at hc
          obtain ⟨⟨⟨⟨hkt2, ht2e⟩, hve⟩, hsep⟩, hch⟩ := hc
          have hkt2n : knownPh t2 = none := Option.isNone_iff_eq_none.mp hkt2
          have ht2ne : t2 ≠ [] := by
            intro hcon
            rw [hcon] at ht2e
            simp at ht2e
          have hv : valOf tags k ≠ [] := by
            intro hcon
            rw [hcon] at hve
            simp at hve
          have hvlen : 1 ≤ (valOf tags k).length := by
            cases hx : valOf tags k with
            | nil => exact absurd hx hv
            | cons _ _ => simp
          have hgreedy : ((i == n - 1) || ((i == n - 2) && le)) = false := by
            cases hr2 : rest2 with
            | nil =>
              subst hr2
              have h1 : (i == n - 1) = false := by
                have h2 : i ≠ n - 1 := by
                  simp only [List.length_cons, List.length_nil] at hn
                  omega
                simpa using h2
              have hle : le = false := by
                have h3 := hl (by simp)
                have h4 : ((t :: [t2]).getLast (by simp)) = t2 := by
                  rw [List.getLast_cons (by simp)]
                  rfl
                rw [h4] at h3
                rw [h3]
                simpa [List.isEmpty_iff] using ht2ne
              simp [h1, hle]
            | cons z zs =>
              subst hr2
              have h1 : (i == n - 1) = false := by
                have h2 : i ≠ n - 1 := by
                  simp only [List.length_cons] at hn
                  omega
                simpa using h2
              have h2 : (i == n - 2) = false := by
                have h3 : i ≠ n - 2 := by
                  simp only [List.length_cons] at hn
                  omega
                simpa using h3
              simp [h1, h2]
          have hl2 : ∀ h : (t2 :: rest2) ≠ [],
              le = (((t2 :: rest2).getLast h).isEmpty : Bool) := by
            intro h2
            have h3 := hl (by simp)
            rw [h3]
            congr 1
          obtain ⟨ha, hg⟩ := ih (i + 1) n le (by
            simp only [List.length_cons] at hn ⊢
            omega) hl2 hch
          have hparts : partsOfAux n le i (t :: t2 :: rest2) =
              FPart.hole k false :: partsOfAux n le (i + 1) (t2 :: rest2) := by
            simp only [partsOfAux, hk, hgreedy]
          have hparts2 : partsOfAux n le (i + 1) (t2 :: rest2) =
              FPart.lit t2 :: partsOfAux n le (i + 2) rest2 := by
            simp only [partsOfAux, hkt2n]
          have hmap : (t :: t2 :: rest2).map (substByMp phMapping tags) =
              valOf tags k :: (t2 :: rest2).map (substByMp phMapping tags) := by
            simp [substByMp_known tags t k hk]
          have hmap2 : (t2 :: rest2).map (substByMp phMapping tags) =
              t2 :: rest2.map (substByMp phMapping tags) := by
            simp [substByMp_unknown tags t2 hkt2n]
          rw [hparts, hmap]
          refine ⟨PAlign.fng k (valOf tags k) _ _ hv ?_ ha, ?_⟩
          · intro k1 hk1 hk2
            rw [hparts2]
            have hdrop : ((valOf tags k ++
                joinToks ((t2 :: rest2).map (substByMp phMapping tags))).drop k1) =
                (valOf tags k).drop k1 ++
                  joinToks ((t2 :: rest2).map (substByMp phMapping tags)) :=
              List.drop_append_of_le_length (by omega)
            rw [hdrop, hmap2, joinToks_cons]
            have hpfx : hasPfx t2 ((valOf tags k).drop k1 ++
                (t2 ++ joinToks (rest2.map (substByMp phMapping tags)))) = false := by
              have hconf : hasPfx t2 ((valOf tags k).drop k1 ++
                  (t2 ++ joinToks (rest2.map (substByMp phMapping tags)))) =
                  hasPfx t2 ((valOf tags k).drop k1 ++ t2) := by
                rw [← List.append_assoc]
                refine hasPfx_confine t2 _ _ ?_
                simp
              rw [hconf]
              have hsep2 := (List.all_eq_true.mp hsep) k1
                (List.mem_range.mpr (by omega))
              simp only [Bool.or_eq_true, beq_iff_eq] at hsep2
              rcases hsep2 with h5 | h5
              · omega
              · have hda : (valOf tags k ++ t2).drop k1 =
                    (valOf tags k).drop k1 ++ t2 :=
                  List.drop_append_of_le_length (by omega)
                rw [← hda]
                simpa using h5
            show (if hasPfx t2 _ = true then _ else none) = none
            rw [if_neg (by rw [hpfx]; simp)]
          · show groupsOf (FPart.hole k false :: partsOfAux n le (i + 1) (t2 :: rest2))
              (valOf tags k :: (t2 :: rest2).map (substByMp phMapping tags)) = _
            show (k, valOf tags k) :: groupsOf (partsOfAux n le (i + 1) (t2 :: rest2))
              ((t2 :: rest2).map (substByMp phMapping tags)) = _
            rw [hg]
            simp [hk]

/-- The round-trip core: under the stated conditions, parsing the
rendered string with the same format recovers exactly the substituted
placeholder values. -/
theorem parse_resolve_roundtrip (f : String) (tags : List (String × String))
    (hsome : (tokensOf f.data).filterMap knownPh ≠ [])
    (hnodup : ((tokensOf f.data).filterMap knownPh).Nodup)
    (hvals : ∀ pk ∈ phMapping, '%' ∉ valOf tags pk.2)
    (hst : stagesOk tags (tokensOf f.data) phMapping = true)
    (hchain : chainOk tags (tokensOf f.data) = true)
    (hdot : ∀ c ∈ joinToks ((tokensOf f.data).map (substByMp phMapping tags)),
      c ≠ '.')
    (hnl : ∀ c ∈ joinToks ((tokensOf f.data).map (substByMp phMapping tags)),
      c ≠ '\n') :
    parse_filename f (resolve_format f tags) =
      (tokensOf f.data).filterMap
        (fun t => (knownPh t).map (fun k => (k, (lookupKey tags k).getD ""))) := by
  have hres := resolve_format_subst f tags hvals hst
  rw [hres]
  unfold parse_filename
  have hdata : (String.mk (joinToks ((tokensOf f.data).map
      (substByMp phMapping tags)))).data =
      joinToks ((tokensOf f.data).map (substByMp phMapping tags)) := rfl
  rw [hdata, splitExt_no_dot _ hdot]
  have hke : ((tokensOf f.data).filterMap knownPh).isEmpty = false :=
    List.isEmpty_eq_false.mpr hsome
  rw [if_neg (by rw [hke]; simp), if_pos hnodup]
  have hl : ∀ h : tokensOf f.data ≠ [],
      ((tokensOf f.data).getD ((tokensOf f.data).length - 1) []).isEmpty =
        (((tokensOf f.data).getLast h).isEmpty : Bool) := by
    intro h
    have hlen : (tokensOf f.data).length - 1 < (tokensOf f.data).length := by
      cases hx : tokensOf f.data with
      | nil => exact absurd hx h
      | cons a l => simp
    rw [List.getLast_eq_getElem, List.getD_eq_getElem _ _ hlen]
  obtain ⟨ha, hg⟩ := alignOfChain tags (tokensOf f.data) 0 (tokensOf f.data).length
    ((tokensOf f.data).getD ((tokensOf f.data).length - 1) []).isEmpty
    (by simp) hl hchain
  show (match matchParts (partsOf (tokensOf f.data))
      (joinToks ((tokensOf f.data).map (substByMp phMapping tags))) with
    | some groups => groups.map (fun kv : String × List Char => (kv.1, String.mk kv.2))
    | none => []) = _
  have hpo : partsOf (tokensOf f.data) =
      partsOfAux (tokensOf f.data).length
        ((tokensOf f.data).getD ((tokensOf f.data).length - 1) []).isEmpty 0
        (tokensOf f.data) := rfl
  rw [hpo, matchOfAlign _ _ ha hnl, hg]
  show (List.filterMap (fun t => Option.map (fun k => (k, valOf tags k)) (knownPh t))
      (tokensOf f.data)).map
      (fun kv : String × List Char => (kv.1, String.mk kv.2)) = _
  rw [List.map_filterMap]
  refine List.filterMap_congr ?_
  intro t _
  cases hk : knownPh t with
  | none => rfl
  | some k => rfl

/-! ## Claim C6 — render/parse round trip of the filename transcoder -/

/-- C6, counterexample.  In the format `"%artist% - %title%"` every
placeholder is separated by the non-empty literal `" - "`, yet with the
artist value `"A - B"` (which contains the separator) rendering gives
`"A - B - T"` and parsing splits at the first separator occurrence: the
parsed artist is `"A"`, not the original `"A - B"`.  Separation of the
placeholders by non-empty literal text is therefore not sufficient for
the round trip; restrictions on the substituted values are needed as
well. -/
theorem C6_counterexample :
    resolve_format "%artist% - %title%" [("artist", "A - B"), ("title", "T")] =
      "A - B - T" ∧
    parse_filename "%artist% - %title%" "A - B - T" =
      [("artist", "A"), ("title", "B - T")] ∧
    ([("artist", "A"), ("title", "B - T")] : List (String × String)) ≠
      [("artist", "A - B"), ("title", "T")] := by
  refine ⟨by decide, by decide, by decide⟩

/-- C6, amended.  Rendering then parsing the same format recovers
exactly the substituted field values provided that, in addition to every
placeholder being separated from the next by non-empty literal text
(part of `chainOk`): the format contains at least one placeholder, no
placeholder twice; no substituted value is empty or contains `'%'`; no
placeholder token is formed across part boundaries during substitution
(`stagesOk`); no separator literal reoccurs inside a value followed by
that separator (`sepOk`, part of `chainOk`); the rendered name contains
no dot (otherwise the parser's extension stripping truncates it); and
the rendered name contains no newline (the pattern's `.+?`/`.+` groups
are compiled without `re.DOTALL` and cannot match `'\n'`).  The parsed
mapping is then exactly the placeholders of the format paired with
their original tag values. -/
theorem C6_amended (f : String) (tags : List (String × String))
    (hsome : (tokensOf f.data).filterMap knownPh ≠ [])
    (hnodup : ((tokensOf f.data).filterMap knownPh).Nodup)
    (hvals : ∀ pk ∈ phMapping, '%' ∉ valOf tags pk.2)
    (hst : stagesOk tags (tokensOf f.data) phMapping = true)
    (hchain : chainOk tags (tokensOf f.data) = true)
    (hdot : ∀ c ∈ joinToks ((tokensOf f.data).map (substByMp phMapping tags)),
      c ≠ '.')
    (hnl : ∀ c ∈ joinToks ((tokensOf f.data).map (substByMp phMapping tags)),
      c ≠ '\n') :
    parse_filename f (resolve_format f tags) =
      (tokensOf f.data).filterMap
        (fun t => (knownPh t).map (fun k => (k, (lookupKey tags k).getD ""))) :=
  parse_resolve_roundtrip f tags hsome hnodup hvals hst hchain hdot hnl

/-- Witness for C6_amended: the format `"%artist% - %title%"` with
values `"AA"`/`"BB"` renders to `"AA - BB"` and parses back to exactly
those values. -/
theorem C6_witness :
    parse_filename "%artist% - %title%"
      (resolve_format "%artist% - %title%" [("artist", "AA"), ("title", "BB")]) =
      [("artist", "AA"), ("title", "BB")] := by
  have h := C6_amended "%artist% - %title%" [("artist", "AA"), ("title", "BB")]
    (by decide) (by decide) (by decide) (by decide) (by decide) (by decide)
    (by decide)
  exact h.trans (by decide)
